import Mathlib

/-!
Verification of the potoo static-site generator (link/embed resolution and
navigation-tree construction engine).

The Lean definitions below are a shallow embedding of the Python sources:
  * `generator.py`        (urlize, parse_input_directory, reorder_children,
                           make_navbar, make_links)
  * `CustomMDExtension.py` (ObsidianLinkPattern.handleMatch,
                           ObsidianImagePattern.handleMatch,
                           ObsidianLinkProcessor.run)
  * `CustomExceptions.py` (SameNameError, UnknownLocalLinkWarning)

Python dictionaries are modelled as insertion-ordered association lists,
pathlib paths as strings, and exceptions as `Except` error values.
-/

/-! ## Association-list model of Python dicts (insertion ordered) -/

/-- Lookup of a key in an insertion-ordered association list
(the model of `d[k]` / `k in d` for a Python dict). -/
def lookupA {β : Type} (k : String) : List (String × β) → Option β
  | [] => none
  | (k', v) :: rest => if k' = k then some v else lookupA k rest

/-- Membership test, the model of Python's `k in d`. -/
def containsA {β : Type} (k : String) (l : List (String × β)) : Bool :=
  (lookupA k l).isSome

/-- Replace the value stored at an existing key, keeping its position. -/
def updateA {β : Type} (k : String) (v : β) : List (String × β) → List (String × β)
  | [] => []
  | (k', v') :: rest => if k' = k then (k', v) :: rest else (k', v') :: updateA k v rest

/-- Python dict assignment `d[k] = v`: overwrite in place if the key exists,
otherwise append the new binding at the end. -/
def insertA {β : Type} (k : String) (v : β) (l : List (String × β)) : List (String × β) :=
  if containsA k l then updateA k v l else l ++ [(k, v)]

/-! ## Name sanitizer (`generator.urlize`) -/

/-- Membership in the regex character class `[a-z0-9-_]` built from
`CHAR_WHITELIST = 'a-z0-9-_'` in `generator.py` (lowercase letters, digits,
hyphen (code 45) and underscore (code 95)). -/
def whitelisted (c : Char) : Bool :=
  (97 ≤ c.toNat && c.toNat ≤ 122) || (48 ≤ c.toNat && c.toNat ≤ 57) ||
    c.toNat == 45 || c.toNat == 95

/-- Embedding of `generator.urlize`: lower-case the text
(`text.lower()`, modelled per character with `Char.toLower`, which agrees
with Python on the ASCII range relevant to the whitelist)
and replace every character outside `[a-z0-9-_]` with an underscore
(`re.sub(f'[^a-z0-9-_]', '_', ...)`). -/
def urlize (s : String) : String :=
  String.mk ((s.data.map Char.toLower).map (fun c => if whitelisted c then c else '_'))

/-! ## Children reordering (`generator.reorder_children`) -/

/-- Embedding of `generator.reorder_children`.

The Python code is

    res = children
    if 'children' in meta:
        parsed_children = meta['children']
        rest = set(children).difference(set(parsed_children))
        new_order = []
        for child in parsed_children:
            if child in children:
                new_order.append(child)
        new_order += list(rest)
        res = new_order
    return res

`meta` is modelled by the optional declared list (`none` when the metadata
has no `children` key).  CPython iterates `list(rest)` in hash-table order,
which is not derivable from the values; the linearisation of the set
difference is therefore passed in as the extra argument `restList`,
constrained by `restOk` below exactly as a Python set linearisation is. -/
def reorder_children (children : List String) (meta : Option (List String))
    (restList : List String) : List String :=
  match meta with
  | none => children
  | some parsed => (parsed.filter (fun c => children.contains c)) ++ restList

/-- `restList` is a valid linearisation of
`set(children).difference(set(parsed))`: duplicate-free and containing
exactly the actual children that were not declared. -/
def restOk (children parsed restList : List String) : Prop :=
  restList.Nodup ∧ ∀ x, x ∈ restList ↔ (x ∈ children ∧ x ∉ parsed)

instance (children parsed restList : List String) :
    Decidable (restOk children parsed restList) :=
  decidable_of_iff
    (restList.Nodup ∧ (∀ x ∈ restList, x ∈ children ∧ x ∉ parsed) ∧
      (∀ x ∈ children, x ∉ parsed → x ∈ restList)) (by
    constructor
    · intro ⟨hnd, h1, h2⟩
      exact ⟨hnd, fun x => ⟨fun hx => h1 x hx, fun ⟨hx, hnp⟩ => h2 x hx hnp⟩⟩
    · intro ⟨hnd, h⟩
      exact ⟨hnd, fun x hx => (h x).mp hx, fun x hx hnp => (h x).mpr ⟨hx, hnp⟩⟩)

/-! ## ElementTree model (`xml.etree.ElementTree` as used by the extension)

An element carries a tag, an attribute dict, the text before its first
child (`text`), the text following its closing tag (`tail`), and a list of
child elements.  `etree` stores `text`/`tail` as `None` or `str`; in the
pipeline under study every anchor produced by `ObsidianLinkPattern` carries
a string text, and the resolver only ever tests `text`/`tail` for
truthiness and concatenates them, for which `None` behaves exactly like
`''`; both are therefore modelled as plain strings with `""` for `None`. -/

inductive Element : Type where
  | mk (tag : String) (attrib : List (String × String)) (text tail : String)
      (children : List Element) : Element

def Element.tag : Element → String
  | .mk t _ _ _ _ => t

def Element.attrib : Element → List (String × String)
  | .mk _ a _ _ _ => a

def Element.text : Element → String
  | .mk _ _ tx _ _ => tx

def Element.tail : Element → String
  | .mk _ _ _ tl _ => tl

def Element.children : Element → List Element
  | .mk _ _ _ _ cs => cs

/-- Model of `element.attrib[k]` read access. -/
def getAttr (el : Element) (k : String) : Option String :=
  lookupA k el.attrib

/-- Model of `element.attrib[k] = v`. -/
def setAttr (el : Element) (k v : String) : Element :=
  .mk el.tag (insertA k v el.attrib) el.text el.tail el.children

/-- Model of setting `element.tail`. -/
def setTail (el : Element) (tl : String) : Element :=
  .mk el.tag el.attrib el.text tl el.children

/-! ## Obsidian inline patterns (`CustomMDExtension.py`) -/

def IMAGE_EXTENSIONS : List String := ["jpg", "jpeg", "png", "gif", "bmp"]

def VIDEO_EXTENSIONS : List String := ["mp4"]

def VIDEO_TYPES : List (String × String) := [("mp4", "video/mp4")]

/-- Model of `s.startswith('http')` (the only prefix the resolver tests),
written over the character list so that it evaluates by `decide`/`rfl`. -/
def startsWithHttp (s : String) : Bool :=
  match s.data with
  | 'h' :: 't' :: 't' :: 'p' :: _ => true
  | _ => false

/-- Model of Python's `str.strip()` (whitespace removed from both ends),
written over the character list so that it evaluates by `decide`/`rfl`. -/
def pyStrip (s : String) : String :=
  String.mk (((s.data.dropWhile Char.isWhitespace).reverse.dropWhile
    Char.isWhitespace).reverse)

/-- Model of Python's `str.split('.')` on the character list: split at every
separator occurrence; `''.split('.') == ['']`. -/
def splitOnChar (sep : Char) : List Char → List (List Char)
  | [] => [[]]
  | c :: rest =>
    if c = sep then [] :: splitOnChar sep rest
    else match splitOnChar sep rest with
      | [] => [[c]]
      | g :: gs => (c :: g) :: gs

/-- `url.split('.')` as a list of strings. -/
def pySplitDot (s : String) : List String :=
  (splitOnChar '.' s.data).map String.mk

/-- Python's `l[-1]` on a non-empty list (`split` never returns an empty
list; the default is never reached). -/
def lastStr : List String → String
  | [] => ""
  | [x] => x
  | _ :: x :: xs => lastStr (x :: xs)

/-- Embedding of `ObsidianLinkPattern.handleMatch`: build an anchor from the
regex groups `url` and `name` of `OBSIDIAN_LINK_RE` (for `[[url|name]]`,
`name` is absent when no `|name` part was written).  Python's `.strip()` is
modelled by `pyStrip`.  The element's text is the stripped display name
when the captured name is truthy, the stripped url otherwise; `href` is the
stripped url. -/
def handleMatchLink (urlGroup : String) (nameGroup : Option String) : Element :=
  let url := pyStrip urlGroup
  let text := match nameGroup with
    | some n => if n ≠ "" then pyStrip n else url
    | none => url
  .mk "a" [("href", url)] text "" []

/-- Embedding of `ObsidianImagePattern.handleMatch`: build an `<img>` or
`<video><source>` element from the regex group `url` of `OBSIDIAN_EMBED_RE`
(for `![[url]]`), or fail with the `ValueError` message.  The extension is
`url.split('.')[-1]`; `VIDEO_TYPES[extension]` is modelled with a default
that is never reached (every video extension has a type). -/
def handleMatchEmbed (urlGroup : String) : Except String Element :=
  let url := pyStrip urlGroup
  let extension := lastStr (pySplitDot url)
  if extension = "" then
    .error (url ++ ": has no extension.")
  else if IMAGE_EXTENSIONS.contains extension then
    .ok (.mk "img" [("src", url)] "" "" [])
  else if VIDEO_EXTENSIONS.contains extension then
    .ok (.mk "video" [("controls", "")] "" ""
      [.mk "source" [("src", url), ("type", (lookupA extension VIDEO_TYPES).getD "")] "" "" []])
  else
    .error (extension ++ ": unknown file type")

/-! ## Link/embed resolver (`ObsidianLinkProcessor.run`)

`run` walks the element tree; for each visited element it runs an
index-based while loop over that element's immediate children, resolving
anchors, images and videos against the link table and removing unresolved
ones.  Because each loop only mutates the children of the element currently
yielded by `root.iter()` — and that loop completes before the iterator
descends into those children — the whole processor is the per-parent loop
applied to every element.  `processChildren` below embeds that loop for one
parent: `parentText` is `parent.text`, `idx` the loop index, `ws` the
warnings emitted so far (one `UnknownLocalLinkWarning` target per entry).

`isStrict` models `config.STRICT`: `warnings.simplefilter("error", ...)`
turns the first `warnings.warn` call into a raised exception
(`ResolveErr.unresolvedRef`), aborting the run.  `ResolveErr.valueError`
models the `list.remove` ValueError raised when a video with several
unresolved sources is removed twice from its parent. -/

inductive ResolveErr : Type where
  | unresolvedRef (target : String) : ResolveErr
  | valueError : ResolveErr

/-- Embedding of the `for source in element` loop of the video branch:
rewrite each resolvable source's `src`, warn on each unresolvable one and
remove the video from its parent (tracked by the `removed` flag; a second
removal raises `ValueError`). -/
def processSources (links : List (String × String)) (isStrict : Bool) :
    List Element → Bool → List String → Except ResolveErr (List Element × Bool × List String)
  | [], removed, ws => .ok ([], removed, ws)
  | s :: rest, removed, ws =>
    let src := (getAttr s "src").getD ""
    if ¬ startsWithHttp src then
      match lookupA src links with
      | some dst =>
        match processSources links isStrict rest removed ws with
        | .error e => .error e
        | .ok (rest', r', ws') => .ok (setAttr s "src" dst :: rest', r', ws')
      | none =>
        if isStrict then .error (.unresolvedRef src)
        else if removed then .error .valueError
        else
          match processSources links isStrict rest true (ws ++ [src]) with
          | .error e => .error e
          | .ok (rest', r', ws') => .ok (s :: rest', r', ws')
    else
      match processSources links isStrict rest removed ws with
      | .error e => .error e
      | .ok (rest', r', ws') => .ok (s :: rest', r', ws')

/-- Embedding of the while loop of `ObsidianLinkProcessor.run` over one
parent's children (see the section comment above). -/
def processChildren (links : List (String × String)) (isStrict : Bool)
    (parentText : String) (children : List Element) (idx : Nat) (ws : List String) :
    Except ResolveErr (String × List Element × List String) :=
  if h : idx < children.length then
    let el := children[idx]
    if el.tag = "a" then
      let href := (getAttr el "href").getD ""
      if ¬ startsWithHttp href then
        match lookupA href links with
        | some dst =>
          processChildren links isStrict parentText
            (children.set idx (setAttr el "href" dst)) (idx + 1) ws
        | none =>
          if isStrict then .error (.unresolvedRef href)
          else
            let text := el.text ++ (if el.tail ≠ "" then el.tail else "")
            if h0 : idx = 0 then
              processChildren links isStrict (parentText ++ text)
                (children.eraseIdx idx) idx (ws ++ [href])
            else
              let previous := children.get ⟨idx - 1, by omega⟩
              processChildren links isStrict parentText
                ((children.set (idx - 1) (setTail previous (previous.tail ++ text))).eraseIdx idx)
                idx (ws ++ [href])
      else
        processChildren links isStrict parentText
          (children.set idx (setAttr el "class" "outgoing")) (idx + 1) ws
    else if el.tag = "img" then
      let src := (getAttr el "src").getD ""
      if ¬ startsWithHttp src then
        match lookupA src links with
        | some dst =>
          processChildren links isStrict parentText
            (children.set idx (setAttr el "src" dst)) (idx + 1) ws
        | none =>
          if isStrict then .error (.unresolvedRef src)
          else
            processChildren links isStrict parentText
              (children.eraseIdx idx) idx (ws ++ [src])
      else
        processChildren links isStrict parentText children (idx + 1) ws
    else if el.tag = "video" then
      match processSources links isStrict el.children false ws with
      | .error e => .error e
      | .ok (srcs', removed, ws') =>
        if removed then
          processChildren links isStrict parentText (children.eraseIdx idx) idx ws'
        else
          processChildren links isStrict parentText
            (children.set idx (.mk el.tag el.attrib el.text el.tail srcs')) (idx + 1) ws'
    else
      processChildren links isStrict parentText children (idx + 1) ws
  else
    .ok (parentText, children, ws)
termination_by children.length - idx
decreasing_by
  all_goals simp [List.length_set, List.length_eraseIdx, h]
  all_goals omega

/-! ## Strictness policy (`config.STRICT` and `warnings.simplefilter`) -/

/-- The unresolved local target of one video `<source>` child, if any. -/
def sourceUnresolved (links : List (String × String)) (s : Element) : List String :=
  let src := (getAttr s "src").getD ""
  if ¬ startsWithHttp src ∧ lookupA src links = none then [src] else []

/-- The unresolved local targets carried by one element, in the order the
resolver's loop inspects them. -/
def elemUnresolved (links : List (String × String)) (el : Element) : List String :=
  if el.tag = "a" then
    (let href := (getAttr el "href").getD ""
     if ¬ startsWithHttp href ∧ lookupA href links = none then [href] else [])
  else if el.tag = "img" then
    (let src := (getAttr el "src").getD ""
     if ¬ startsWithHttp src ∧ lookupA src links = none then [src] else [])
  else if el.tag = "video" then
    el.children.foldr (fun s acc => sourceUnresolved links s ++ acc) []
  else []

/-- All unresolved local targets in a child list, in loop order. -/
def unresolvedTargets (links : List (String × String)) (cs : List Element) : List String :=
  cs.foldr (fun el acc => elemUnresolved links el ++ acc) []

/-- Whether a resolver run aborted with the strict-mode escalated warning. -/
def isUnresolvedErr : Except ResolveErr (String × List Element × List String) → Bool
  | .error (.unresolvedRef _) => true
  | _ => false

/-- The warnings of a completed (non-aborted) resolver run. -/
def resultWarnings : Except ResolveErr (String × List Element × List String) → Option (List String)
  | .ok (_, _, ws) => some ws
  | .error _ => none

/-- The number of children surviving a completed resolver run. -/
def resultChildCount : Except ResolveErr (String × List Element × List String) → Option Nat
  | .ok (_, cs, _) => some cs.length
  | .error _ => none

/-! ## Navigation composer (`generator.make_navbar`, ancestor rows)

The navigation table maps a page name to its parent (`none` only for the
root `""` key) and its ordered children.  `make_navbar` walks upward from
the page's parent while the current ancestor is truthy and different from
`config.INPUT_DIRECTORY`, and for each visited ancestor emits the row of
its parent's children, each tagged active iff it equals the ancestor; rows
are inserted at the front, so the returned list is root-most first.
Python raises `KeyError` on a missing ancestor key; the model totalises the
lookups with an empty default, and the `chainOk` hypothesis of the theorem
below (satisfied by every walker-produced table whose sentinel names the
input root) rules that case out. -/

abbrev NavTable := List (String × (Option String × List String))

/-- Truthiness of the `grandparent` value (`None` or a string). -/
def truthyO : Option String → Bool
  | none => false
  | some s => s != ""

def navParent (nav : NavTable) (k : String) : Option String :=
  ((lookupA k nav).getD (none, [])).1

def navChildren (nav : NavTable) (k : String) : List String :=
  ((lookupA k nav).getD (none, [])).2

/-- Embedding of the ancestor-row loop of `make_navbar` (fuelled, since the
Python `while` loop diverges on a cyclic table; the theorems' hypotheses
provide enough fuel). -/
def make_navbar_ancestors (nav : NavTable) (sentinel : String) :
    Nat → Option String → List (List (String × Bool))
  | 0, _ => []
  | fuel + 1, curr =>
    match curr with
    | none => []
    | some c =>
      if c != "" && c != sentinel then
        let gp := navParent nav c
        let row := match gp with
          | some g => if g != "" then (navChildren nav g).map (fun s => (s, s == c)) else []
          | none => []
        (make_navbar_ancestors nav sentinel fuel gp) ++ [row]
      else []

/-- The ancestor walk from `curr` terminates at the sentinel within the
fuel, every visited ancestor has a recorded truthy grandparent, and occurs
exactly once in that grandparent's children list. -/
def chainOk (nav : NavTable) (sentinel : String) : Nat → Option String → Bool
  | 0, curr =>
    match curr with
    | none => true
    | some c => !(c != "" && c != sentinel)
  | fuel + 1, curr =>
    match curr with
    | none => true
    | some c =>
      if c != "" && c != sentinel then
        match navParent nav c with
        | some g => (g != "") && ((navChildren nav g).count c == 1) &&
            chainOk nav sentinel fuel (some g)
        | none => false
      else true

/-- Example navigation table for the C9 witness: root directory `root`
containing pages `a` (with child `p`) and `b`. -/
def exampleNav : NavTable :=
  [("", (none, ["root"])), ("root", (some "", ["a", "b"])),
    ("a", (some "root", ["p"])), ("p", (some "a", []))]

/-! ## Directory walker (`generator.parse_input_directory`)

The input tree is modelled structurally: each entry carries its stem and
suffix (with full name `stem ++ sfx`, as split by `pathlib`; a real suffix
is empty or starts with a dot).  The embedding walks the tree in pre-order
(the root first, parents before their children), which matches
`chain([path], path.glob('**/*'))` in every respect the walker's results
depend on: hidden entries prune their whole subtree exactly as the
`item.parts` test does (assuming the root's own path is clean and has a
single component, as `main` requires), and each entry is handed its
parent's stem.  Python raises `KeyError` when a parent stem is missing
from the navigation table; `WalkErr.keyError` models that, and the
theorems show it never occurs. -/

inductive Entry : Type where
  | file (stem sfx : String) : Entry
  | dir (stem sfx : String) (entries : List Entry) : Entry

/-- Model of `name.startswith('.')` (the hidden-entry test). -/
def startsWithDot (s : String) : Bool :=
  match s.data with
  | '.' :: _ => true
  | _ => false

/-- Model of `(item / (item.stem + '.md')).exists()`: the directory holds an
entry (of either kind, as `exists()` does not check the kind) whose full
name is `stem + ".md"`. -/
def hasDescFile (stem : String) (entries : List Entry) : Bool :=
  entries.any (fun e =>
    match e with
    | .file st sf => st ++ sf == stem ++ ".md"
    | .dir st sf _ => st ++ sf == stem ++ ".md")

abbrev PagesTable := List (String × (Option String × String))

abbrev MediaList := List (String × String)

/-- The three tables built by `parse_input_directory`. -/
structure WalkState : Type where
  pages : PagesTable
  navigation : NavTable
  media : MediaList

inductive WalkErr : Type where
  | sameName (name : String) : WalkErr
  | keyError : WalkErr

def MEDIA_DIRECTORY : String := "media"

/-- Model of `navigation[item.parent.stem][1].append(item.stem)`: in-place
append to the children list stored at an existing key. -/
def appendChild (k s : String) : NavTable → NavTable
  | [] => []
  | (k', (po, cs)) :: rest =>
    if k' = k then (k', (po, cs ++ [s])) :: rest
    else (k', (po, cs)) :: appendChild k s rest

/-- The navigation-table step run for every directory and every
non-description markdown page: append the stem to the parent's children
(`KeyError` if the parent is absent), then raise `SameNameError` if the
stem is already a key, else create the fresh entry `[parent_stem, []]`. -/
def navAdd (parentStem stem : String) (nav : NavTable) : Except WalkErr NavTable :=
  if containsA parentStem nav then
    let nav1 := appendChild parentStem stem nav
    if containsA stem nav1 then .error (.sameName stem)
    else .ok (nav1 ++ [(stem, (some parentStem, []))])
  else .error .keyError

mutual
def walkEntry (parentStem : String) (st : WalkState) : Entry → Except WalkErr WalkState
  | .file stem sfx =>
    if startsWithDot (stem ++ sfx) then .ok st
    else if sfx = ".md" then
      if stem = parentStem then .ok st
      else
        match navAdd parentStem stem st.navigation with
        | .error e => .error e
        | .ok nav1 =>
          .ok { pages := insertA stem (some (stem ++ sfx), urlize stem ++ ".html") st.pages,
                navigation := nav1, media := st.media }
    else
      .ok { st with
        media := st.media ++ [(stem ++ sfx, MEDIA_DIRECTORY ++ "/" ++ urlize stem ++ sfx)] }
  | .dir stem sfx entries =>
    if startsWithDot (stem ++ sfx) then .ok st
    else
      let desc := if hasDescFile stem entries then some (stem ++ "/" ++ stem ++ ".md") else none
      let pages1 := insertA stem (desc, urlize stem ++ ".html") st.pages
      match navAdd parentStem stem st.navigation with
      | .error e => .error e
      | .ok nav1 =>
        walkList stem { pages := pages1, navigation := nav1, media := st.media } entries

def walkList (parentStem : String) (st : WalkState) : List Entry → Except WalkErr WalkState
  | [] => .ok st
  | e :: es =>
    match walkEntry parentStem st e with
    | .error err => .error err
    | .ok st' => walkList parentStem st' es
end

/-- The walker's initial state: `navigation[''] = [None, []]`. -/
def initState : WalkState := ⟨[], [("", (none, []))], []⟩

/-- Embedding of `parse_input_directory` for an input directory named
`rootStem ++ rootSfx` (a single-component path, as `main` requires) holding
`entries`.  The root is the first walked item: it is hidden-checked, gets
output path `index.html` (`is_root`), and its parent stem is `''`. -/
def parse_input_directory (rootStem rootSfx : String) (entries : List Entry) :
    Except WalkErr WalkState :=
  if startsWithDot (rootStem ++ rootSfx) then .ok initState
  else
    let desc := if hasDescFile rootStem entries then
        some (rootStem ++ "/" ++ rootStem ++ ".md") else none
    let pages1 := insertA rootStem (desc, "index.html") initState.pages
    match navAdd "" rootStem initState.navigation with
    | .error e => .error e
    | .ok nav1 => walkList rootStem ⟨pages1, nav1, []⟩ entries

/-! Specification-side recursions: the stems of the qualifying items (every
non-hidden directory and non-description markdown file, in walk order), the
media entries, and the page counts. -/

mutual
def qualStems (parentStem : String) : Entry → List String
  | .file stem sfx =>
    if startsWithDot (stem ++ sfx) then []
    else if sfx = ".md" then (if stem = parentStem then [] else [stem])
    else []
  | .dir stem sfx entries =>
    if startsWithDot (stem ++ sfx) then []
    else stem :: qualStemsList stem entries

def qualStemsList (parentStem : String) : List Entry → List String
  | [] => []
  | e :: es => qualStems parentStem e ++ qualStemsList parentStem es
end

def allQualStems (rootStem rootSfx : String) (entries : List Entry) : List String :=
  if startsWithDot (rootStem ++ rootSfx) then []
  else rootStem :: qualStemsList rootStem entries

mutual
def mediaOfEntry : Entry → MediaList
  | .file stem sfx =>
    if startsWithDot (stem ++ sfx) then []
    else if sfx = ".md" then []
    else [(stem ++ sfx, MEDIA_DIRECTORY ++ "/" ++ urlize stem ++ sfx)]
  | .dir stem sfx entries =>
    if startsWithDot (stem ++ sfx) then [] else mediaOfList entries

def mediaOfList : List Entry → MediaList
  | [] => []
  | e :: es => mediaOfEntry e ++ mediaOfList es
end

def allMedia (rootStem rootSfx : String) (entries : List Entry) : MediaList :=
  if startsWithDot (rootStem ++ rootSfx) then [] else mediaOfList entries

mutual
def countDirs : Entry → Nat
  | .file _ _ => 0
  | .dir stem sfx entries =>
    if startsWithDot (stem ++ sfx) then 0 else 1 + countDirsList entries

def countDirsList : List Entry → Nat
  | [] => 0
  | e :: es => countDirs e + countDirsList es
end

mutual
def countMdPages (parentStem : String) : Entry → Nat
  | .file stem sfx =>
    if startsWithDot (stem ++ sfx) then 0
    else if sfx = ".md" then (if stem = parentStem then 0 else 1)
    else 0
  | .dir stem sfx entries =>
    if startsWithDot (stem ++ sfx) then 0 else countMdPagesList stem entries

def countMdPagesList (parentStem : String) : List Entry → Nat
  | [] => 0
  | e :: es => countMdPages parentStem e + countMdPagesList parentStem es
end

def countDirsRoot (rootStem rootSfx : String) (entries : List Entry) : Nat :=
  if startsWithDot (rootStem ++ rootSfx) then 0 else 1 + countDirsList entries

def countMdPagesRoot (rootStem rootSfx : String) (entries : List Entry) : Nat :=
  if startsWithDot (rootStem ++ rootSfx) then 0 else countMdPagesList rootStem entries

/-- The first name in a walk-ordered stem list that collides with an
already-seen name (`seen` starts as the navigation table's keys). -/
def firstViolation (seen : List String) : List String → Option String
  | [] => none
  | x :: xs => if seen.contains x then some x else firstViolation (seen ++ [x]) xs

def navKeys (nav : NavTable) : List String := nav.map (fun p => p.1)

def pageKeys (pg : PagesTable) : List String := pg.map (fun p => p.1)

/-- Iterating the recorded parent from `k` reaches the root key `""` within
the fuel: the navigation table is connected to its root with no cycles. -/
def chainToRoot (nav : NavTable) : Nat → String → Bool
  | 0, k => k == ""
  | n + 1, k =>
    k == "" ||
      (match lookupA k nav with
       | some (some p, _) => chainToRoot nav n p
       | _ => false)

/-- Structural well-formedness of the parent pointers: scanning the table
left to right, every entry either is the root (`""`, parent `None`) or
points to a strictly earlier key. -/
def parentsGood (earlier : List String) : NavTable → Prop
  | [] => True
  | (k, (po, _)) :: rest =>
    ((po = none ∧ k = "") ∨ (∃ p, po = some p ∧ p ∈ earlier)) ∧
    parentsGood (earlier ++ [k]) rest

/-- The state invariant maintained by the walk: the navigation keys are the
root key followed by the page keys, they are duplicate-free, and the parent
pointers are well-formed. -/
def StInv (st : WalkState) : Prop :=
  navKeys st.navigation = "" :: pageKeys st.pages ∧
  (navKeys st.navigation).Nodup ∧
  parentsGood [] st.navigation

/-- Embedding of `generator.make_links`: page names map to page output
paths, then each media file's full name maps to its destination — a later
assignment overwriting an earlier one, as in a Python dict. -/
def make_links (pages : PagesTable) (media : MediaList) : List (String × String) :=
  media.foldl (fun l m => insertA m.1 m.2 l) (pages.map (fun p => (p.1, p.2.2)))

/-- Input tree for the C2 witness: two directories named `notes` at
different depths of the tree. -/
def dupEntries : List Entry :=
  [Entry.dir "notes" "" [Entry.dir "sub" "" [Entry.dir "notes" "" []]]]

/-- Input tree for the C7 witness: a directory with a description file and
a note, a top-level note, a media file and a hidden file. -/
def exEntries : List Entry :=
  [Entry.dir "docs" "" [Entry.file "note" ".md", Entry.file "docs" ".md"],
    Entry.file "readme" ".md", Entry.file "logo" ".png", Entry.file ".hidden" ".md"]

/-- The state the walker computes on `exEntries`. -/
def exState : WalkState :=
  { pages := [("input", (none, "index.html")), ("docs", (some "docs/docs.md", "docs.html")),
      ("note", (some "note.md", "note.html")), ("readme", (some "readme.md", "readme.html"))],
    navigation := [("", (none, ["input"])), ("input", (some "", ["docs", "readme"])),
      ("docs", (some "input", ["note"])), ("note", (some "docs", [])),
      ("readme", (some "input", []))],
    media := [("logo.png", "media/logo.png")] }

/-- Input tree for the C10 witness: two media files named `photo.png`, one
at the top level and one in a subdirectory. -/
def medEntries : List Entry :=
  [Entry.file "photo" ".png", Entry.dir "sub" "" [Entry.file "photo" ".png"]]

/-- The state the walker computes on `medEntries`: no error, both media
files collected. -/
def medState : WalkState :=
  { pages := [("input", (none, "index.html")), ("sub", (none, "sub.html"))],
    navigation := [("", (none, ["input"])), ("input", (some "", ["sub"])),
      ("sub", (some "input", []))],
    media := [("photo.png", "media/photo.png"), ("photo.png", "media/photo.png")] }

theorem whitelisted_toLower_eq {c : Char} (h : whitelisted c = true) : c.toLower = c := by
  unfold Char.toLower
  simp only [whitelisted, Bool.or_eq_true, Bool.and_eq_true, decide_eq_true_eq,
    beq_iff_eq] at h
  have hno : ¬ (c.toNat ≥ 65 ∧ c.toNat ≤ 90) := by omega
  simp only [hno, if_false]

theorem whitelisted_out (c : Char) :
    whitelisted (if whitelisted c then c else '_') = true := by
  by_cases h : whitelisted c = true
  · simp [h]
  · simp [h]
    decide

theorem urlize_fixed_list (l : List Char) (h : ∀ c ∈ l, whitelisted c = true) :
    (l.map Char.toLower).map (fun c => if whitelisted c then c else '_') = l := by
  induction l with
  | nil => rfl
  | cons c rest ih =>
    have hc : whitelisted c = true := h c (List.mem_cons_self c rest)
    simp only [List.map_cons, whitelisted_toLower_eq hc, hc, if_pos]
    rw [ih (fun d hd => h d (List.mem_cons_of_mem c hd))]

/-- C8: `urlize` (the sanitizer) is a total pure function that lower-cases its
input and replaces every character outside `[a-z0-9-_]` with an underscore
(every output character lies in the whitelist); it is idempotent, and
`urlize "My Note!" = "my_note_"`. -/
theorem urlize_sanitizer_spec :
    (∀ x : String, urlize (urlize x) = urlize x) ∧
    urlize "My Note!" = "my_note_" ∧
    (∀ x : String, ∀ c ∈ (urlize x).data, whitelisted c = true) := by
  refine ⟨?_, by decide, ?_⟩
  · intro x
    have h : ∀ c ∈ (urlize x).data, whitelisted c = true := by
      intro c hc
      simp only [urlize, List.mem_map] at hc
      obtain ⟨d, _, hd⟩ := hc
      rw [← hd]
      exact whitelisted_out d
    calc urlize (urlize x)
        = String.mk (((urlize x).data.map Char.toLower).map
            (fun c => if whitelisted c then c else '_')) := rfl
      _ = String.mk (urlize x).data := by rw [urlize_fixed_list _ h]
      _ = urlize x := rfl
  · intro x c hc
    simp only [urlize, List.mem_map] at hc
    obtain ⟨d, _, hd⟩ := hc
    rw [← hd]
    exact whitelisted_out d

/-- C1 counterexample: with actual children `["a"]` and metadata-declared
children `["a", "a"]` (the empty list being the only valid linearisation of
the empty set difference), `reorder_children` returns `["a", "a"]`, which
contains a duplicate — refuting the claim's "no duplicates" guarantee. -/
theorem reorder_children_claim_cex :
    restOk ["a"] ["a", "a"] [] ∧
    reorder_children ["a"] (some ["a", "a"]) [] = ["a", "a"] ∧
    ¬ (reorder_children ["a"] (some ["a", "a"]) []).Nodup := by
  refine ⟨by decide, by decide, by decide⟩

/-- C1 (amended): when the metadata declares a children list that is itself
duplicate-free, the result is the declared children that exist in the actual
children list, in declared order, followed by the linearised set difference
(the remaining actual children, each exactly once, in the order CPython's
set iteration yields them — not necessarily the original scan order); the
result has no duplicates and contains exactly the actual children (none
dropped, none added). -/
theorem reorder_children_amended (children parsed restList : List String)
    (hp : parsed.Nodup)
    (hr : restOk children parsed restList) :
    reorder_children children (some parsed) restList =
      (parsed.filter (fun c => children.contains c)) ++ restList ∧
    (reorder_children children (some parsed) restList).Nodup ∧
    (∀ x, x ∈ reorder_children children (some parsed) restList ↔ x ∈ children) := by
  obtain ⟨hnd, hmem⟩ := hr
  refine ⟨rfl, ?_, ?_⟩
  · show ((parsed.filter (fun c => children.contains c)) ++ restList).Nodup
    refine List.Nodup.append (hp.filter _) hnd ?_
    intro x hx1 hx2
    have hxp : x ∈ parsed := (List.mem_filter.mp hx1).1
    exact ((hmem x).mp hx2).2 hxp
  · intro x
    show x ∈ (parsed.filter (fun c => children.contains c)) ++ restList ↔ x ∈ children
    rw [List.mem_append]
    constructor
    · rintro (hx | hx)
      · have := (List.mem_filter.mp hx).2
        simpa using this
      · exact ((hmem x).mp hx).1
    · intro hx
      by_cases hxp : x ∈ parsed
      · left
        refine List.mem_filter.mpr ⟨hxp, ?_⟩
        simpa using hx
      · right
        exact (hmem x).mpr ⟨hx, hxp⟩

/-- C1 witness: for declared children `[c, a]` and actual children
`[a, b, c]` the reordering yields `[c, a, b]`, duplicate-free. -/
theorem reorder_children_amended_witness :
    (["c", "a"] : List String).Nodup ∧
    restOk ["a", "b", "c"] ["c", "a"] ["b"] ∧
    reorder_children ["a", "b", "c"] (some ["c", "a"]) ["b"] = ["c", "a", "b"] ∧
    (reorder_children ["a", "b", "c"] (some ["c", "a"]) ["b"]).Nodup :=
  ⟨by decide, by decide, by decide,
    (reorder_children_amended ["a", "b", "c"] ["c", "a"] ["b"]
      (by decide) (by decide)).2.1⟩

/-- C5: for every embed `![[target]]`, the embed pattern yields an `<img>`
with `src = target` when the target's extension (its last dot-separated
segment) is a recognized image extension, a `<video>` with a single
`<source src=target type="video/mp4">` child when the extension is the
recognized video extension `mp4`, and raises a `ValueError` when the target
has no extension or an unrecognized one (the pattern never consults the
strict/lenient configuration). -/
theorem embed_pattern_spec (target : String) :
    (lastStr (pySplitDot (pyStrip target)) ∈ IMAGE_EXTENSIONS →
      handleMatchEmbed target = .ok (.mk "img" [("src", pyStrip target)] "" "" [])) ∧
    (lastStr (pySplitDot (pyStrip target)) ∈ VIDEO_EXTENSIONS →
      handleMatchEmbed target = .ok (.mk "video" [("controls", "")] "" ""
        [.mk "source" [("src", pyStrip target), ("type", "video/mp4")] "" "" []])) ∧
    ((lastStr (pySplitDot (pyStrip target)) = "" ∨
      (lastStr (pySplitDot (pyStrip target)) ∉ IMAGE_EXTENSIONS ∧
        lastStr (pySplitDot (pyStrip target)) ∉ VIDEO_EXTENSIONS)) →
      ∃ msg, handleMatchEmbed target = .error msg) := by
  refine ⟨?_, ?_, ?_⟩
  · intro h
    have hne : lastStr (pySplitDot (pyStrip target)) ≠ "" := by
      intro he
      rw [he] at h
      exact absurd h (by decide)
    simp only [handleMatchEmbed, hne, if_false, if_neg hne]
    rw [if_pos]
    simpa [IMAGE_EXTENSIONS] using h
  · intro h
    have hmp4 : lastStr (pySplitDot (pyStrip target)) = "mp4" := by
      simpa [VIDEO_EXTENSIONS] using h
    simp [handleMatchEmbed, hmp4, IMAGE_EXTENSIONS, VIDEO_EXTENSIONS, VIDEO_TYPES,
      lookupA]
  · rintro (he | ⟨h1, h2⟩)
    · exact ⟨pyStrip target ++ ": has no extension.", by simp [handleMatchEmbed, he]⟩
    · by_cases he : lastStr (pySplitDot (pyStrip target)) = ""
      · exact ⟨pyStrip target ++ ": has no extension.", by simp [handleMatchEmbed, he]⟩
      · refine ⟨lastStr (pySplitDot (pyStrip target)) ++ ": unknown file type", ?_⟩
        simp only [handleMatchEmbed, if_neg he]
        rw [if_neg, if_neg]
        · simpa [VIDEO_EXTENSIONS] using h2
        · simpa [IMAGE_EXTENSIONS] using h1

/-- C5 witness: concrete embeds of each kind. -/
theorem embed_pattern_spec_witness :
    handleMatchEmbed "photo.png" = .ok (.mk "img" [("src", "photo.png")] "" "" []) ∧
    handleMatchEmbed "clip.mp4" = .ok (.mk "video" [("controls", "")] "" ""
      [.mk "source" [("src", "clip.mp4"), ("type", "video/mp4")] "" "" []]) ∧
    (∃ msg, handleMatchEmbed "file.xyz" = .error msg) ∧
    (∃ msg, handleMatchEmbed "file" = .error msg) :=
  ⟨(embed_pattern_spec "photo.png").1 (by decide),
    (embed_pattern_spec "clip.mp4").2.1 (by decide),
    (embed_pattern_spec "file.xyz").2.2 (Or.inr (by decide)),
    (embed_pattern_spec "file").2.2 (Or.inr (by decide))⟩

/-- C6: a link `[[T|D]]` whose target `T` is mapped to `P` by the link table
(and does not start with `http`) parses to an anchor that the resolver
rewrites to `href = P` with visible text `D`; without the `|D` part the
visible text is `T` itself.  `T` and `D` are taken in stripped form, as the
upstream regex and `.strip()` calls normalise surrounding whitespace. -/
theorem link_resolution_spec (links : List (String × String)) (T D P : String)
    (b : Bool) (pt : String)
    (hT : pyStrip T = T) (hD : pyStrip D = D) (hDne : D ≠ "")
    (hhttp : ¬ startsWithHttp T) (hlk : lookupA T links = some P) :
    processChildren links b pt [handleMatchLink T (some D)] 0 [] =
      .ok (pt, [Element.mk "a" [("href", P)] D "" []], []) ∧
    processChildren links b pt [handleMatchLink T none] 0 [] =
      .ok (pt, [Element.mk "a" [("href", P)] T "" []], []) := by
  have hel : handleMatchLink T (some D) = .mk "a" [("href", T)] D "" [] := by
    simp [handleMatchLink, hT, hD, hDne]
  have hel2 : handleMatchLink T none = .mk "a" [("href", T)] T "" [] := by
    simp [handleMatchLink, hT]
  rw [hel, hel2]
  constructor
  · rw [processChildren]
    simp only [List.length_cons, List.length_nil, Nat.zero_lt_one, dif_pos]
    simp only [List.getElem_cons_zero, Element.tag, if_pos rfl]
    have hget : getAttr (Element.mk "a" [("href", T)] D "" []) "href" = some T := by
      simp [getAttr, lookupA]
    rw [hget]
    simp only [Option.getD_some, hhttp, not_false_eq_true, if_pos, hlk]
    have hset : setAttr (Element.mk "a" [("href", T)] D "" []) "href" P =
        Element.mk "a" [("href", P)] D "" [] := by
      simp [setAttr, insertA, containsA, lookupA, updateA, Element.tag, Element.text, Element.tail, Element.children, Element.attrib]
    rw [hset, processChildren]
    simp
  · rw [processChildren]
    simp only [List.length_cons, List.length_nil, Nat.zero_lt_one, dif_pos]
    simp only [List.getElem_cons_zero, Element.tag, if_pos rfl]
    have hget : getAttr (Element.mk "a" [("href", T)] T "" []) "href" = some T := by
      simp [getAttr, lookupA]
    rw [hget]
    simp only [Option.getD_some, hhttp, not_false_eq_true, if_pos, hlk]
    have hset : setAttr (Element.mk "a" [("href", T)] T "" []) "href" P =
        Element.mk "a" [("href", P)] T "" [] := by
      simp [setAttr, insertA, containsA, lookupA, updateA, Element.tag, Element.text, Element.tail, Element.children, Element.attrib]
    rw [hset, processChildren]
    simp

/-- C6 witness: `[[Alpha|Shown Text]]` with the table mapping `Alpha` to
`alpha.html` resolves to `href="alpha.html"` and text `"Shown Text"`. -/
theorem link_resolution_spec_witness :
    processChildren [("Alpha", "alpha.html")] false "" [handleMatchLink "Alpha" (some "Shown Text")] 0 [] =
      .ok ("", [Element.mk "a" [("href", "alpha.html")] "Shown Text" "" []], []) :=
  (link_resolution_spec [("Alpha", "alpha.html")] "Alpha" "Shown Text" "alpha.html"
    false "" (by decide) (by decide) (by decide) (by decide) (by decide)).1

theorem append_ifEmpty (a t : String) : a ++ (if t ≠ "" then t else "") = a ++ t := by
  by_cases h : t = "" <;> simp [h]

/-- C3: in lenient mode, an anchor whose local target is absent from the
link table is removed and only its wrapper disappears: its text content
plus its trailing tail text is spliced into the parent's own leading text
when it is the first child, or into the preceding sibling's tail otherwise
(the loop then continues at the same index over the shortened list); an
image or a video (with its single embed-pattern source) whose local target
is absent is removed whole, with nothing spliced anywhere. -/
theorem lenient_removal_spec (links : List (String × String)) (pt : String)
    (cs : List Element) (idx : Nat) (ws : List String) (el : Element)
    (h : idx < cs.length) (hel : cs.get ⟨idx, h⟩ = el) :
    (el.tag = "a" → ¬ startsWithHttp ((getAttr el "href").getD "") →
      lookupA ((getAttr el "href").getD "") links = none →
      (idx = 0 →
        processChildren links false pt cs idx ws =
          processChildren links false (pt ++ el.text ++ el.tail) (cs.eraseIdx idx) idx
            (ws ++ [(getAttr el "href").getD ""])) ∧
      (∀ hpos : 0 < idx,
        processChildren links false pt cs idx ws =
          processChildren links false pt
            ((cs.set (idx - 1) (setTail (cs.get ⟨idx - 1, by omega⟩)
              ((cs.get ⟨idx - 1, by omega⟩).tail ++ el.text ++ el.tail))).eraseIdx idx)
            idx (ws ++ [(getAttr el "href").getD ""]))) ∧
    (el.tag = "img" → ¬ startsWithHttp ((getAttr el "src").getD "") →
      lookupA ((getAttr el "src").getD "") links = none →
      processChildren links false pt cs idx ws =
        processChildren links false pt (cs.eraseIdx idx) idx
          (ws ++ [(getAttr el "src").getD ""])) ∧
    (∀ s, el.tag = "video" → el.children = [s] →
      ¬ startsWithHttp ((getAttr s "src").getD "") →
      lookupA ((getAttr s "src").getD "") links = none →
      processChildren links false pt cs idx ws =
        processChildren links false pt (cs.eraseIdx idx) idx
          (ws ++ [(getAttr s "src").getD ""])) := by
  have hge : cs[idx] = el := by
    rw [← hel]
    simp [List.get_eq_getElem]
  refine ⟨?_, ?_, ?_⟩
  · intro ht hhttp hlk
    constructor
    · intro h0
      rw [processChildren]
      simp only [dif_pos h, hge, ht, if_pos, hhttp, not_false_eq_true, hlk]
      rw [dif_pos h0]
      rw [show pt ++ (el.text ++ (if el.tail ≠ "" then el.tail else "")) =
        pt ++ el.text ++ el.tail by rw [append_ifEmpty]; rw [String.append_assoc]]
      simp
    · intro hpos
      rw [processChildren]
      simp only [dif_pos h, hge, ht, if_pos, hhttp, not_false_eq_true, hlk]
      rw [dif_neg (by omega : ¬ idx = 0)]
      rw [show (cs.get ⟨idx - 1, by omega⟩).tail ++
          (el.text ++ (if el.tail ≠ "" then el.tail else "")) =
          (cs.get ⟨idx - 1, by omega⟩).tail ++ el.text ++ el.tail by
        rw [append_ifEmpty]; rw [String.append_assoc]]
      simp
  · intro ht hhttp hlk
    have hna : el.tag ≠ "a" := by rw [ht]; decide
    rw [processChildren]
    simp only [dif_pos h, hge, if_neg hna, ht, if_pos, hhttp, not_false_eq_true, hlk]
    simp
  · intro s ht hcs hhttp hlk
    have hna : el.tag ≠ "a" := by rw [ht]; decide
    have hni : el.tag ≠ "img" := by rw [ht]; decide
    have hps : processSources links false el.children false ws =
        .ok ([s], true, ws ++ [(getAttr s "src").getD ""]) := by
      rw [hcs]
      rw [processSources]
      simp only [hhttp, not_false_eq_true, if_pos, hlk]
      simp [processSources]
    rw [processChildren]
    simp only [dif_pos h, hge, if_neg hna, if_neg hni, ht, if_pos, hps]
    simp

/-- C3 witness: an unresolved anchor with a preceding sibling is removed
with its text and tail spliced onto that sibling's tail, and an unresolved
image is removed leaving nothing. -/
theorem lenient_removal_spec_witness :
    processChildren [] false "pt"
        [Element.mk "span" [] "stext" "stail" [],
          Element.mk "a" [("href", "Missing")] "dead" " after" []] 1 [] =
      processChildren [] false "pt"
        [Element.mk "span" [] "stext" "staildead after" []] 1 ["Missing"] ∧
    processChildren [] false "p"
        [Element.mk "img" [("src", "pic.png")] "" "" []] 0 [] =
      processChildren [] false "p" [] 0 ["pic.png"] :=
  ⟨((lenient_removal_spec [] "pt"
      [Element.mk "span" [] "stext" "stail" [],
        Element.mk "a" [("href", "Missing")] "dead" " after" []] 1 []
      (Element.mk "a" [("href", "Missing")] "dead" " after" [])
      (by decide) rfl).1 rfl (by decide) rfl).2 (by decide),
    (lenient_removal_spec [] "p"
      [Element.mk "img" [("src", "pic.png")] "" "" []] 0 []
      (Element.mk "img" [("src", "pic.png")] "" "" [])
      (by decide) rfl).2.1 rfl (by decide) rfl⟩

theorem unresolvedTargets_nil (links : List (String × String)) :
    unresolvedTargets links [] = [] := rfl

theorem unresolvedTargets_cons (links : List (String × String)) (el : Element)
    (cs : List Element) :
    unresolvedTargets links (el :: cs) =
      elemUnresolved links el ++ unresolvedTargets links cs := rfl

theorem drop_eraseIdx_self {α : Type} (l : List α) (i : Nat) (h : i < l.length) :
    (l.eraseIdx i).drop i = l.drop (i + 1) := by
  rw [List.eraseIdx_eq_take_drop_succ]
  have ht : (l.take i).length = i := by
    simp [List.length_take]
    omega
  rw [List.drop_left' ht]

theorem drop_set_lt {α : Type} (l : List α) (i j : Nat) (a : α) (hij : i < j) :
    (l.set i a).drop j = l.drop j := by
  rw [List.drop_set, if_pos hij]

theorem processSources_strict (links : List (String × String)) :
    ∀ (sources : List Element) (removed : Bool) (ws : List String),
    ((sources.foldr (fun s acc => sourceUnresolved links s ++ acc) [] = [] →
      ∃ srcs', processSources links true sources removed ws = .ok (srcs', removed, ws)) ∧
    (∀ t rest, sources.foldr (fun s acc => sourceUnresolved links s ++ acc) [] = t :: rest →
      processSources links true sources removed ws = .error (.unresolvedRef t))) := by
  intro sources
  induction sources with
  | nil =>
    intro removed ws
    refine ⟨fun _ => ⟨[], rfl⟩, fun t rest h => ?_⟩
    simp at h
  | cons s srest ih =>
    intro removed ws
    by_cases hh : startsWithHttp ((getAttr s "src").getD "") = true
    · have he : sourceUnresolved links s = [] := by
        simp [sourceUnresolved, hh]
      constructor
      · intro h0
        simp only [List.foldr_cons, he, List.nil_append] at h0
        obtain ⟨srcs', hrec⟩ := (ih removed ws).1 h0
        refine ⟨s :: srcs', ?_⟩
        rw [processSources]
        simp [hh, hrec]
      · intro t rest h0
        simp only [List.foldr_cons, he, List.nil_append] at h0
        have hrec := (ih removed ws).2 t rest h0
        rw [processSources]
        simp [hh, hrec]
    · by_cases hlk : lookupA ((getAttr s "src").getD "") links = none
      · have he : sourceUnresolved links s = [(getAttr s "src").getD ""] := by
          simp [sourceUnresolved, hh, hlk]
        constructor
        · intro h0
          simp [List.foldr_cons, he] at h0
        · intro t rest h0
          simp only [List.foldr_cons, he, List.cons_append, List.cons.injEq] at h0
          obtain ⟨ht, _⟩ := h0
          subst ht
          rw [processSources]
          simp [hh, hlk]
      · obtain ⟨dst, hdst⟩ : ∃ d, lookupA ((getAttr s "src").getD "") links = some d := by
          cases hv : lookupA ((getAttr s "src").getD "") links with
          | none => exact absurd hv hlk
          | some d => exact ⟨d, rfl⟩
        have he : sourceUnresolved links s = [] := by
          simp [sourceUnresolved, hdst]
        constructor
        · intro h0
          simp only [List.foldr_cons, he, List.nil_append] at h0
          obtain ⟨srcs', hrec⟩ := (ih removed ws).1 h0
          refine ⟨setAttr s "src" dst :: srcs', ?_⟩
          rw [processSources]
          simp [hh, hdst, hrec]
        · intro t rest h0
          simp only [List.foldr_cons, he, List.nil_append] at h0
          have hrec := (ih removed ws).2 t rest h0
          rw [processSources]
          simp [hh, hdst, hrec]

theorem processSources_lenient (links : List (String × String))
    (sources : List Element) (ws : List String) (hlen : sources.length ≤ 1) :
    ∃ srcs', processSources links false sources false ws =
      .ok (srcs',
        !(sources.foldr (fun s acc => sourceUnresolved links s ++ acc) []).isEmpty,
        ws ++ sources.foldr (fun s acc => sourceUnresolved links s ++ acc) []) := by
  match sources with
  | [] => exact ⟨[], by simp [processSources]⟩
  | [s] =>
    by_cases hh : startsWithHttp ((getAttr s "src").getD "") = true
    · refine ⟨[s], ?_⟩
      have he : sourceUnresolved links s = [] := by simp [sourceUnresolved, hh]
      rw [processSources]
      simp [processSources, hh, he]
    · by_cases hlk : lookupA ((getAttr s "src").getD "") links = none
      · refine ⟨[s], ?_⟩
        have he : sourceUnresolved links s = [(getAttr s "src").getD ""] := by
          simp [sourceUnresolved, hh, hlk]
        rw [processSources]
        simp [processSources, hh, hlk, he]
      · obtain ⟨dst, hdst⟩ : ∃ d, lookupA ((getAttr s "src").getD "") links = some d := by
          cases hv : lookupA ((getAttr s "src").getD "") links with
          | none => exact absurd hv hlk
          | some d => exact ⟨d, rfl⟩
        refine ⟨[setAttr s "src" dst], ?_⟩
        have he : sourceUnresolved links s = [] := by simp [sourceUnresolved, hdst]
        rw [processSources]
        simp [processSources, hh, hdst, he]
  | s :: s2 :: srest => simp at hlen

theorem processChildren_strict (links : List (String × String)) :
    ∀ (n : Nat) (cs : List Element) (idx : Nat) (pt : String) (ws : List String),
    cs.length - idx ≤ n →
    ((unresolvedTargets links (cs.drop idx) = [] →
      ∃ cs', processChildren links true pt cs idx ws = .ok (pt, cs', ws)) ∧
    (∀ t rest, unresolvedTargets links (cs.drop idx) = t :: rest →
      processChildren links true pt cs idx ws = .error (.unresolvedRef t))) := by
  intro n
  induction n with
  | zero =>
    intro cs idx pt ws hn
    have hge : ¬ idx < cs.length := by omega
    have hdrop : cs.drop idx = [] := List.drop_eq_nil_of_le (by omega)
    rw [processChildren, dif_neg hge]
    refine ⟨fun _ => ⟨cs, rfl⟩, fun t rest hc => ?_⟩
    rw [hdrop] at hc
    simp [unresolvedTargets] at hc
  | succ n ih =>
    intro cs idx pt ws hn
    by_cases h : idx < cs.length
    case neg =>
      have hdrop : cs.drop idx = [] := List.drop_eq_nil_of_le (by omega)
      rw [processChildren, dif_neg h]
      refine ⟨fun _ => ⟨cs, rfl⟩, fun t rest hc => ?_⟩
      rw [hdrop] at hc
      simp [unresolvedTargets] at hc
    case pos =>
    have hdrop : cs.drop idx = cs[idx] :: cs.drop (idx + 1) := List.drop_eq_getElem_cons h
    by_cases ha : (cs[idx]).tag = "a"
    · by_cases hh : startsWithHttp ((getAttr cs[idx] "href").getD "") = true
      · have he : elemUnresolved links cs[idx] = [] := by
          simp [elemUnresolved, ha, hh]
        have hstep : processChildren links true pt cs idx ws =
            processChildren links true pt
              (cs.set idx (setAttr cs[idx] "class" "outgoing")) (idx + 1) ws := by
          rw [processChildren, dif_pos h]
          simp [ha, hh]
        have hrec := ih (cs.set idx (setAttr cs[idx] "class" "outgoing")) (idx + 1) pt ws
          (by simp [List.length_set]; omega)
        rw [drop_set_lt _ _ _ _ (by omega)] at hrec
        rw [hstep, hdrop, unresolvedTargets_cons, he, List.nil_append]
        exact hrec
      · by_cases hlk : lookupA ((getAttr cs[idx] "href").getD "") links = none
        · have he : elemUnresolved links cs[idx] = [(getAttr cs[idx] "href").getD ""] := by
            simp [elemUnresolved, ha, hh, hlk]
          have hstep : processChildren links true pt cs idx ws =
              .error (.unresolvedRef ((getAttr cs[idx] "href").getD "")) := by
            rw [processChildren, dif_pos h]
            simp [ha, hh, hlk]
          rw [hstep, hdrop, unresolvedTargets_cons, he]
          constructor
          · intro h0
            simp at h0
          · intro t rest hc
            rw [List.cons_append] at hc
            injection hc with h1 h2
            rw [h1]
        · obtain ⟨dst, hdst⟩ : ∃ d, lookupA ((getAttr cs[idx] "href").getD "") links = some d := by
            cases hv : lookupA ((getAttr cs[idx] "href").getD "") links with
            | none => exact absurd hv hlk
            | some d => exact ⟨d, rfl⟩
          have he : elemUnresolved links cs[idx] = [] := by
            simp [elemUnresolved, ha, hh, hdst]
          have hstep : processChildren links true pt cs idx ws =
              processChildren links true pt
                (cs.set idx (setAttr cs[idx] "href" dst)) (idx + 1) ws := by
            rw [processChildren, dif_pos h]
            simp [ha, hh, hdst]
          have hrec := ih (cs.set idx (setAttr cs[idx] "href" dst)) (idx + 1) pt ws
            (by simp [List.length_set]; omega)
          rw [drop_set_lt _ _ _ _ (by omega)] at hrec
          rw [hstep, hdrop, unresolvedTargets_cons, he, List.nil_append]
          exact hrec
    · by_cases hi : (cs[idx]).tag = "img"
      · by_cases hh : startsWithHttp ((getAttr cs[idx] "src").getD "") = true
        · have he : elemUnresolved links cs[idx] = [] := by
            simp [elemUnresolved, ha, hi, hh]
          have hstep : processChildren links true pt cs idx ws =
              processChildren links true pt cs (idx + 1) ws := by
            rw [processChildren, dif_pos h]
            simp [ha, hi, hh]
          have hrec := ih cs (idx + 1) pt ws (by omega)
          rw [hstep, hdrop, unresolvedTargets_cons, he, List.nil_append]
          exact hrec
        · by_cases hlk : lookupA ((getAttr cs[idx] "src").getD "") links = none
          · have he : elemUnresolved links cs[idx] = [(getAttr cs[idx] "src").getD ""] := by
              simp [elemUnresolved, ha, hi, hh, hlk]
            have hstep : processChildren links true pt cs idx ws =
                .error (.unresolvedRef ((getAttr cs[idx] "src").getD "")) := by
              rw [processChildren, dif_pos h]
              simp [ha, hi, hh, hlk]
            rw [hstep, hdrop, unresolvedTargets_cons, he]
            constructor
            · intro h0
              simp at h0
            · intro t rest hc
              rw [List.cons_append] at hc
              injection hc with h1 h2
              rw [h1]
          · obtain ⟨dst, hdst⟩ : ∃ d, lookupA ((getAttr cs[idx] "src").getD "") links = some d := by
              cases hv : lookupA ((getAttr cs[idx] "src").getD "") links with
              | none => exact absurd hv hlk
              | some d => exact ⟨d, rfl⟩
            have he : elemUnresolved links cs[idx] = [] := by
              simp [elemUnresolved, ha, hi, hh, hdst]
            have hstep : processChildren links true pt cs idx ws =
                processChildren links true pt
                  (cs.set idx (setAttr cs[idx] "src" dst)) (idx + 1) ws := by
              rw [processChildren, dif_pos h]
              simp [ha, hi, hh, hdst]
            have hrec := ih (cs.set idx (setAttr cs[idx] "src" dst)) (idx + 1) pt ws
              (by simp [List.length_set]; omega)
            rw [drop_set_lt _ _ _ _ (by omega)] at hrec
            rw [hstep, hdrop, unresolvedTargets_cons, he, List.nil_append]
            exact hrec
      · by_cases hv : (cs[idx]).tag = "video"
        · have he : elemUnresolved links cs[idx] =
              (cs[idx]).children.foldr (fun s acc => sourceUnresolved links s ++ acc) [] := by
            simp [elemUnresolved, ha, hi, hv]
          cases hvt : (cs[idx]).children.foldr (fun s acc => sourceUnresolved links s ++ acc) [] with
          | nil =>
            obtain ⟨srcs', hps⟩ := (processSources_strict links (cs[idx]).children false ws).1 hvt
            have hstep : processChildren links true pt cs idx ws =
                processChildren links true pt
                  (cs.set idx (.mk (cs[idx]).tag (cs[idx]).attrib (cs[idx]).text
                    (cs[idx]).tail srcs')) (idx + 1) ws := by
              rw [processChildren, dif_pos h]
              simp [ha, hi, hv, hps]
            have hrec := ih (cs.set idx (.mk (cs[idx]).tag (cs[idx]).attrib (cs[idx]).text
                (cs[idx]).tail srcs')) (idx + 1) pt ws
              (by simp [List.length_set]; omega)
            rw [drop_set_lt _ _ _ _ (by omega)] at hrec
            rw [hstep, hdrop, unresolvedTargets_cons, he, hvt, List.nil_append]
            exact hrec
          | cons t0 rest0 =>
            have hps := (processSources_strict links (cs[idx]).children false ws).2 t0 rest0 hvt
            have hstep : processChildren links true pt cs idx ws =
                .error (.unresolvedRef t0) := by
              rw [processChildren, dif_pos h]
              simp [ha, hi, hv, hps]
            rw [hstep, hdrop, unresolvedTargets_cons, he, hvt]
            constructor
            · intro h0
              simp at h0
            · intro t rest hc
              rw [List.cons_append] at hc
              injection hc with h1 h2
              rw [h1]
        · have he : elemUnresolved links cs[idx] = [] := by
            simp [elemUnresolved, ha, hi, hv]
          have hstep : processChildren links true pt cs idx ws =
              processChildren links true pt cs (idx + 1) ws := by
            rw [processChildren, dif_pos h]
            simp [ha, hi, hv]
          have hrec := ih cs (idx + 1) pt ws (by omega)
          rw [hstep, hdrop, unresolvedTargets_cons, he, List.nil_append]
          exact hrec

theorem processChildren_lenient (links : List (String × String)) :
    ∀ (n : Nat) (cs : List Element) (idx : Nat) (pt : String) (ws : List String),
    cs.length - idx ≤ n →
    (∀ el ∈ cs.drop idx, el.tag = "video" → el.children.length ≤ 1) →
    ∃ pt' cs', processChildren links false pt cs idx ws =
      .ok (pt', cs', ws ++ unresolvedTargets links (cs.drop idx)) ∧
      cs'.length =
        cs.length - ((cs.drop idx).countP (fun el => !(elemUnresolved links el).isEmpty)) := by
  intro n
  induction n with
  | zero =>
    intro cs idx pt ws hn hwf
    have hge : ¬ idx < cs.length := by omega
    have hdrop : cs.drop idx = [] := List.drop_eq_nil_of_le (by omega)
    refine ⟨pt, cs, ?_, ?_⟩
    · rw [processChildren, dif_neg hge, hdrop]
      simp [unresolvedTargets]
    · rw [hdrop]
      simp
  | succ n ih =>
    intro cs idx pt ws hn hwf
    by_cases h : idx < cs.length
    case neg =>
      have hdrop : cs.drop idx = [] := List.drop_eq_nil_of_le (by omega)
      refine ⟨pt, cs, ?_, ?_⟩
      · rw [processChildren, dif_neg h, hdrop]
        simp [unresolvedTargets]
      · rw [hdrop]
        simp
    case pos =>
    have hdrop : cs.drop idx = cs[idx] :: cs.drop (idx + 1) := List.drop_eq_getElem_cons h
    have hwf' : ∀ el ∈ cs.drop (idx + 1), el.tag = "video" → el.children.length ≤ 1 := by
      intro el hm
      exact hwf el (by rw [hdrop]; exact List.mem_cons_of_mem _ hm)
    by_cases ha : (cs[idx]).tag = "a"
    · by_cases hh : startsWithHttp ((getAttr cs[idx] "href").getD "") = true
      · have he : elemUnresolved links cs[idx] = [] := by
          simp [elemUnresolved, ha, hh]
        have hstep : processChildren links false pt cs idx ws =
            processChildren links false pt
              (cs.set idx (setAttr cs[idx] "class" "outgoing")) (idx + 1) ws := by
          rw [processChildren, dif_pos h]
          simp [ha, hh]
        obtain ⟨pt', cs', hok, hcnt⟩ := ih (cs.set idx (setAttr cs[idx] "class" "outgoing"))
          (idx + 1) pt ws (by simp [List.length_set]; omega)
          (by rw [drop_set_lt _ _ _ _ (by omega)]; exact hwf')
        rw [drop_set_lt _ _ _ _ (by omega)] at hok hcnt
        refine ⟨pt', cs', ?_, ?_⟩
        · rw [hstep, hok, hdrop, unresolvedTargets_cons, he, List.nil_append]
        · rw [hcnt, hdrop, List.countP_cons]
          simp [he, List.length_set]
      · by_cases hlk : lookupA ((getAttr cs[idx] "href").getD "") links = none
        · have he : elemUnresolved links cs[idx] = [(getAttr cs[idx] "href").getD ""] := by
            simp [elemUnresolved, ha, hh, hlk]
          by_cases h0 : idx = 0
          · subst h0
            have hstep : processChildren links false pt cs 0 ws =
                processChildren links false
                  (pt ++ ((cs[0]).text ++ (if (cs[0]).tail ≠ "" then (cs[0]).tail else "")))
                  (cs.eraseIdx 0) 0 (ws ++ [(getAttr cs[0] "href").getD ""]) := by
              rw [processChildren, dif_pos h]
              simp [ha, hh, hlk]
            obtain ⟨pt', cs', hok, hcnt⟩ := ih (cs.eraseIdx 0) 0
              (pt ++ ((cs[0]).text ++ (if (cs[0]).tail ≠ "" then (cs[0]).tail else "")))
              (ws ++ [(getAttr cs[0] "href").getD ""])
              (by rw [List.length_eraseIdx_of_lt h]; omega)
              (by rw [drop_eraseIdx_self _ _ h]; exact hwf')
            rw [drop_eraseIdx_self _ _ h] at hok hcnt
            refine ⟨pt', cs', ?_, ?_⟩
            · rw [hstep, hok, hdrop, unresolvedTargets_cons, he]
              simp
            · rw [hcnt, hdrop, List.countP_cons, List.length_eraseIdx_of_lt h]
              simp [he]
              omega
          · have hprev : idx - 1 < cs.length := by omega
            have hstep0 : processChildren links false pt cs idx ws =
                processChildren links false pt
                  ((cs.set (idx - 1) (setTail (cs.get ⟨idx - 1, hprev⟩)
                    ((cs.get ⟨idx - 1, hprev⟩).tail ++
                      ((cs[idx]).text ++
                        (if (cs[idx]).tail ≠ "" then (cs[idx]).tail else ""))))).eraseIdx idx)
                  idx (ws ++ [(getAttr cs[idx] "href").getD ""]) := by
              rw [processChildren, dif_pos h]
              simp [ha, hh, hlk, h0]
            obtain ⟨x, hstep⟩ : ∃ x, processChildren links false pt cs idx ws =
                processChildren links false pt ((cs.set (idx - 1) x).eraseIdx idx) idx
                  (ws ++ [(getAttr cs[idx] "href").getD ""]) := ⟨_, hstep0⟩
            have hlen1 : (cs.set (idx - 1) x).length = cs.length := by
              simp [List.length_set]
            have hidx2 : idx < (cs.set (idx - 1) x).length := by
              rw [hlen1]
              exact h
            obtain ⟨pt', cs', hok, hcnt⟩ := ih ((cs.set (idx - 1) x).eraseIdx idx) idx pt
              (ws ++ [(getAttr cs[idx] "href").getD ""])
              (by rw [List.length_eraseIdx_of_lt hidx2, hlen1]; omega)
              (by rw [drop_eraseIdx_self _ _ hidx2, drop_set_lt _ _ _ _ (by omega)]
                  exact hwf')
            rw [drop_eraseIdx_self _ _ hidx2, drop_set_lt _ _ _ _ (by omega)] at hok hcnt
            refine ⟨pt', cs', ?_, ?_⟩
            · rw [hstep, hok, hdrop, unresolvedTargets_cons, he]
              simp
            · rw [hcnt, hdrop, List.countP_cons, List.length_eraseIdx_of_lt hidx2, hlen1]
              simp [he]
              omega
        · obtain ⟨dst, hdst⟩ : ∃ d, lookupA ((getAttr cs[idx] "href").getD "") links = some d := by
            cases hv : lookupA ((getAttr cs[idx] "href").getD "") links with
            | none => exact absurd hv hlk
            | some d => exact ⟨d, rfl⟩
          have he : elemUnresolved links cs[idx] = [] := by
            simp [elemUnresolved, ha, hh, hdst]
          have hstep : processChildren links false pt cs idx ws =
              processChildren links false pt
                (cs.set idx (setAttr cs[idx] "href" dst)) (idx + 1) ws := by
            rw [processChildren, dif_pos h]
            simp [ha, hh, hdst]
          obtain ⟨pt', cs', hok, hcnt⟩ := ih (cs.set idx (setAttr cs[idx] "href" dst))
            (idx + 1) pt ws (by simp [List.length_set]; omega)
            (by rw [drop_set_lt _ _ _ _ (by omega)]; exact hwf')
          rw [drop_set_lt _ _ _ _ (by omega)] at hok hcnt
          refine ⟨pt', cs', ?_, ?_⟩
          · rw [hstep, hok, hdrop, unresolvedTargets_cons, he, List.nil_append]
          · rw [hcnt, hdrop, List.countP_cons]
            simp [he, List.length_set]
    · by_cases hi : (cs[idx]).tag = "img"
      · by_cases hh : startsWithHttp ((getAttr cs[idx] "src").getD "") = true
        · have he : elemUnresolved links cs[idx] = [] := by
            simp [elemUnresolved, ha, hi, hh]
          have hstep : processChildren links false pt cs idx ws =
              processChildren links false pt cs (idx + 1) ws := by
            rw [processChildren, dif_pos h]
            simp [ha, hi, hh]
          obtain ⟨pt', cs', hok, hcnt⟩ := ih cs (idx + 1) pt ws (by omega) hwf'
          refine ⟨pt', cs', ?_, ?_⟩
          · rw [hstep, hok, hdrop, unresolvedTargets_cons, he, List.nil_append]
          · rw [hcnt, hdrop, List.countP_cons]
            simp [he]
        · by_cases hlk : lookupA ((getAttr cs[idx] "src").getD "") links = none
          · have he : elemUnresolved links cs[idx] = [(getAttr cs[idx] "src").getD ""] := by
              simp [elemUnresolved, ha, hi, hh, hlk]
            have hstep : processChildren links false pt cs idx ws =
                processChildren links false pt (cs.eraseIdx idx) idx
                  (ws ++ [(getAttr cs[idx] "src").getD ""]) := by
              rw [processChildren, dif_pos h]
              simp [ha, hi, hh, hlk]
            obtain ⟨pt', cs', hok, hcnt⟩ := ih (cs.eraseIdx idx) idx pt
              (ws ++ [(getAttr cs[idx] "src").getD ""])
              (by rw [List.length_eraseIdx_of_lt h]; omega)
              (by rw [drop_eraseIdx_self _ _ h]; exact hwf')
            rw [drop_eraseIdx_self _ _ h] at hok hcnt
            refine ⟨pt', cs', ?_, ?_⟩
            · rw [hstep, hok, hdrop, unresolvedTargets_cons, he]
              simp
            · rw [hcnt, hdrop, List.countP_cons, List.length_eraseIdx_of_lt h]
              simp [he]
              omega
          · obtain ⟨dst, hdst⟩ : ∃ d, lookupA ((getAttr cs[idx] "src").getD "") links = some d := by
              cases hv : lookupA ((getAttr cs[idx] "src").getD "") links with
              | none => exact absurd hv hlk
              | some d => exact ⟨d, rfl⟩
            have he : elemUnresolved links cs[idx] = [] := by
              simp [elemUnresolved, ha, hi, hh, hdst]
            have hstep : processChildren links false pt cs idx ws =
                processChildren links false pt
                  (cs.set idx (setAttr cs[idx] "src" dst)) (idx + 1) ws := by
              rw [processChildren, dif_pos h]
              simp [ha, hi, hh, hdst]
            obtain ⟨pt', cs', hok, hcnt⟩ := ih (cs.set idx (setAttr cs[idx] "src" dst))
              (idx + 1) pt ws (by simp [List.length_set]; omega)
              (by rw [drop_set_lt _ _ _ _ (by omega)]; exact hwf')
            rw [drop_set_lt _ _ _ _ (by omega)] at hok hcnt
            refine ⟨pt', cs', ?_, ?_⟩
            · rw [hstep, hok, hdrop, unresolvedTargets_cons, he, List.nil_append]
            · rw [hcnt, hdrop, List.countP_cons]
              simp [he, List.length_set]
      · by_cases hv : (cs[idx]).tag = "video"
        · have he : elemUnresolved links cs[idx] =
              (cs[idx]).children.foldr (fun s acc => sourceUnresolved links s ++ acc) [] := by
            simp [elemUnresolved, ha, hi, hv]
          have hwflen : (cs[idx]).children.length ≤ 1 :=
            hwf cs[idx] (by rw [hdrop]; exact List.mem_cons_self _ _) hv
          obtain ⟨srcs', hps⟩ := processSources_lenient links (cs[idx]).children ws hwflen
          cases hvt : (cs[idx]).children.foldr (fun s acc => sourceUnresolved links s ++ acc) [] with
          | nil =>
            rw [hvt] at hps
            simp only [List.isEmpty_nil, Bool.not_true, List.append_nil] at hps
            have hstep : processChildren links false pt cs idx ws =
                processChildren links false pt
                  (cs.set idx (.mk (cs[idx]).tag (cs[idx]).attrib (cs[idx]).text
                    (cs[idx]).tail srcs')) (idx + 1) ws := by
              rw [processChildren, dif_pos h]
              simp [ha, hi, hv, hps]
            obtain ⟨pt', cs', hok, hcnt⟩ := ih
              (cs.set idx (.mk (cs[idx]).tag (cs[idx]).attrib (cs[idx]).text
                (cs[idx]).tail srcs')) (idx + 1) pt ws
              (by simp [List.length_set]; omega)
              (by rw [drop_set_lt _ _ _ _ (by omega)]; exact hwf')
            rw [drop_set_lt _ _ _ _ (by omega)] at hok hcnt
            refine ⟨pt', cs', ?_, ?_⟩
            · rw [hstep, hok, hdrop, unresolvedTargets_cons, he, hvt, List.nil_append]
            · rw [hcnt, hdrop, List.countP_cons]
              simp [he, hvt, List.length_set]
          | cons t0 rest0 =>
            rw [hvt] at hps
            simp only [List.isEmpty_cons, Bool.not_false] at hps
            have hstep : processChildren links false pt cs idx ws =
                processChildren links false pt (cs.eraseIdx idx) idx
                  (ws ++ (t0 :: rest0)) := by
              rw [processChildren, dif_pos h]
              simp [ha, hi, hv, hps]
            obtain ⟨pt', cs', hok, hcnt⟩ := ih (cs.eraseIdx idx) idx pt
              (ws ++ (t0 :: rest0))
              (by rw [List.length_eraseIdx_of_lt h]; omega)
              (by rw [drop_eraseIdx_self _ _ h]; exact hwf')
            rw [drop_eraseIdx_self _ _ h] at hok hcnt
            refine ⟨pt', cs', ?_, ?_⟩
            · rw [hstep, hok, hdrop, unresolvedTargets_cons, he, hvt]
              simp
            · rw [hcnt, hdrop, List.countP_cons, List.length_eraseIdx_of_lt h]
              simp [he, hvt]
              omega
        · have he : elemUnresolved links cs[idx] = [] := by
            simp [elemUnresolved, ha, hi, hv]
          have hstep : processChildren links false pt cs idx ws =
              processChildren links false pt cs (idx + 1) ws := by
            rw [processChildren, dif_pos h]
            simp [ha, hi, hv]
          obtain ⟨pt', cs', hok, hcnt⟩ := ih cs (idx + 1) pt ws (by omega) hwf'
          refine ⟨pt', cs', ?_, ?_⟩
          · rw [hstep, hok, hdrop, unresolvedTargets_cons, he, List.nil_append]
          · rw [hcnt, hdrop, List.countP_cons]
            simp [he]

/-- C4: resolution of a local target absent from the link table aborts the
run iff strict mode is configured: under `STRICT` (where
`warnings.simplefilter("error", ...)` turns the warning into a raised
exception) the loop ends in the escalated-warning error exactly when some
unresolved local target exists; under lenient mode the loop always
completes, its emitted diagnostics are exactly the unresolved target
strings (in inspection order), and each offending element is removed (one
surviving child fewer per unresolved element).  Videos are assumed to carry
at most one `<source>`, as the embed pattern produces. -/
theorem strictness_policy_spec :
    (∀ (links : List (String × String)) (cs : List Element) (pt : String),
      isUnresolvedErr (processChildren links true pt cs 0 []) = true ↔
        unresolvedTargets links cs ≠ []) ∧
    (∀ (links : List (String × String)) (cs : List Element) (pt : String),
      (∀ el ∈ cs, el.tag = "video" → el.children.length ≤ 1) →
      resultWarnings (processChildren links false pt cs 0 []) =
        some (unresolvedTargets links cs) ∧
      resultChildCount (processChildren links false pt cs 0 []) =
        some (cs.length - cs.countP (fun el => !(elemUnresolved links el).isEmpty))) := by
  constructor
  · intro links cs pt
    have hs := processChildren_strict links cs.length cs 0 pt [] (by omega)
    rw [List.drop_zero] at hs
    constructor
    · intro herr
      intro hnil
      obtain ⟨cs', hok⟩ := hs.1 hnil
      rw [hok] at herr
      simp [isUnresolvedErr] at herr
    · intro hne
      cases hvt : unresolvedTargets links cs with
      | nil => exact absurd hvt hne
      | cons t rest =>
        rw [hs.2 t rest hvt]
        simp [isUnresolvedErr]
  · intro links cs pt hwf
    obtain ⟨pt', cs', hok, hcnt⟩ := processChildren_lenient links cs.length cs 0 pt []
      (by omega) (by rw [List.drop_zero]; exact hwf)
    rw [List.drop_zero] at hok hcnt
    rw [hok]
    simp [resultWarnings, resultChildCount, hcnt]

/-- C4 witness: a single unresolved local image aborts the strict run and
is dropped with a diagnostic under the lenient run. -/
theorem strictness_policy_spec_witness :
    isUnresolvedErr (processChildren [] true ""
      [Element.mk "img" [("src", "pic.png")] "" "" []] 0 []) = true ∧
    resultWarnings (processChildren [] false ""
      [Element.mk "img" [("src", "pic.png")] "" "" []] 0 []) = some ["pic.png"] ∧
    resultChildCount (processChildren [] false ""
      [Element.mk "img" [("src", "pic.png")] "" "" []] 0 []) = some 0 :=
  ⟨(strictness_policy_spec.1 [] [Element.mk "img" [("src", "pic.png")] "" "" []] "").mpr
      (by decide),
    (strictness_policy_spec.2 [] [Element.mk "img" [("src", "pic.png")] "" "" []] ""
      (by decide)).1,
    (strictness_policy_spec.2 [] [Element.mk "img" [("src", "pic.png")] "" "" []] ""
      (by decide)).2⟩

theorem filter_map_active (l : List String) (c : String) :
    ((l.map (fun s => (s, s == c))).filter (fun p => p.2)).length = l.count c := by
  induction l with
  | nil => rfl
  | cons x xs ih =>
    by_cases hx : (x == c) = true
    · simp [List.filter_cons, hx, ih, List.count_cons]
    · simp [List.filter_cons, hx, ih, List.count_cons]

/-- C9: every ancestor-sibling row emitted by the navbar composer marks
exactly one entry active — the ancestor on the path to the page — provided
the ancestor chain reaches the configured input-root sentinel with truthy
recorded grandparents and each visited ancestor occurs exactly once in its
grandparent's children (as in every walker-produced navigation table whose
`INPUT_DIRECTORY` names the input root). -/
theorem navbar_active_spec (nav : NavTable) (sentinel : String) :
    ∀ (fuel : Nat) (curr : Option String),
    chainOk nav sentinel fuel curr = true →
    ∀ row ∈ make_navbar_ancestors nav sentinel fuel curr,
      (row.filter (fun p => p.2)).length = 1 := by
  intro fuel
  induction fuel with
  | zero =>
    intro curr hok row hrow
    simp [make_navbar_ancestors] at hrow
  | succ fuel ih =>
    intro curr hok row hrow
    match curr with
    | none => simp [make_navbar_ancestors] at hrow
    | some c =>
      by_cases hc : (c != "" && c != sentinel) = true
      · rw [make_navbar_ancestors] at hrow
        simp only [hc, if_pos] at hrow
        rw [chainOk] at hok
        simp only [hc, if_pos] at hok
        cases hgp : navParent nav c with
        | none =>
          rw [hgp] at hok
          simp at hok
        | some g =>
          rw [hgp] at hok
          simp only [Bool.and_eq_true, beq_iff_eq] at hok
          obtain ⟨⟨hg, hcount⟩, hrest⟩ := hok
          rw [hgp] at hrow
          rw [List.mem_append] at hrow
          cases hrow with
          | inl hmem => exact ih (some g) hrest row hmem
          | inr hmem =>
            simp only [List.mem_singleton] at hmem
            subst hmem
            rw [if_pos hg, filter_map_active]
            exact hcount
      · rw [make_navbar_ancestors] at hrow
        simp only [hc] at hrow
        simp at hrow

/-- C9 witness: for the page `p` (whose parent is `a`), the single emitted
ancestor row tags `a` active and `b` inactive — exactly one active entry. -/
theorem navbar_active_spec_witness :
    chainOk exampleNav "root" 5 (some "a") = true ∧
    make_navbar_ancestors exampleNav "root" 5 (some "a") =
      [[("a", true), ("b", false)]] ∧
    (([("a", true), ("b", false)] : List (String × Bool)).filter
      (fun p => p.2)).length = 1 :=
  ⟨by decide, by decide,
    navbar_active_spec exampleNav "root" 5 (some "a") (by decide)
      [("a", true), ("b", false)] (by decide)⟩

theorem containsA_iff_mem {β : Type} (k : String) :
    ∀ (l : List (String × β)), containsA k l = true ↔ k ∈ l.map (fun p => p.1) := by
  intro l
  induction l with
  | nil => simp [containsA, lookupA]
  | cons hd rest ih =>
    obtain ⟨k1, v1⟩ := hd
    by_cases hk : k1 = k
    · subst hk
      simp [containsA, lookupA]
    · simp only [containsA, lookupA, if_neg hk, List.map_cons, List.mem_cons]
      rw [← containsA]
      rw [ih]
      constructor
      · intro hm
        exact Or.inr hm
      · rintro (he | hm)
        · exact absurd he.symm hk
        · exact hm

theorem appendChild_keys (k s : String) :
    ∀ (nav : NavTable), navKeys (appendChild k s nav) = navKeys nav := by
  intro nav
  induction nav with
  | nil => rfl
  | cons hd rest ih =>
    obtain ⟨k1, po, cs⟩ := hd
    by_cases hk : k1 = k
    · simp [appendChild, hk, navKeys]
    · simp only [appendChild, if_neg hk, navKeys, List.map_cons]
      rw [← navKeys, ← navKeys, ih]

theorem appendChild_parentsGood (k s : String) :
    ∀ (nav : NavTable) (earlier : List String),
    parentsGood earlier nav → parentsGood earlier (appendChild k s nav) := by
  intro nav
  induction nav with
  | nil => intro earlier h; exact h
  | cons hd rest ih =>
    obtain ⟨k1, po, cs⟩ := hd
    intro earlier h
    obtain ⟨hhd, htl⟩ := h
    by_cases hk : k1 = k
    · rw [appendChild, if_pos hk]
      exact ⟨hhd, htl⟩
    · rw [appendChild, if_neg hk]
      exact ⟨hhd, ih (earlier ++ [k1]) htl⟩

theorem parentsGood_append_new (k p : String) (cs : List String) :
    ∀ (nav : NavTable) (earlier : List String),
    parentsGood earlier nav → p ∈ earlier ++ navKeys nav →
    parentsGood earlier (nav ++ [(k, (some p, cs))]) := by
  intro nav
  induction nav with
  | nil =>
    intro earlier _ hp
    refine ⟨Or.inr ⟨p, rfl, ?_⟩, trivial⟩
    simpa [navKeys] using hp
  | cons hd rest ih =>
    obtain ⟨k1, po1, cs1⟩ := hd
    intro earlier h hp
    obtain ⟨hhd, htl⟩ := h
    refine ⟨hhd, ih (earlier ++ [k1]) htl ?_⟩
    simp only [navKeys, List.map_cons, List.mem_append, List.mem_cons] at hp ⊢
    rcases hp with hp | hp | hp
    · exact Or.inl (Or.inl hp)
    · exact Or.inl (Or.inr (by simp [hp]))
    · exact Or.inr hp

theorem navAdd_spec (parentStem stem : String) (nav : NavTable)
    (hnd : (navKeys nav).Nodup) (hpg : parentsGood [] nav)
    (hp : containsA parentStem nav = true) :
    (stem ∈ navKeys nav → navAdd parentStem stem nav = .error (.sameName stem)) ∧
    (stem ∉ navKeys nav → navAdd parentStem stem nav =
        .ok (appendChild parentStem stem nav ++ [(stem, (some parentStem, []))]) ∧
      navKeys (appendChild parentStem stem nav ++ [(stem, (some parentStem, []))]) =
        navKeys nav ++ [stem] ∧
      (navKeys nav ++ [stem]).Nodup ∧
      parentsGood [] (appendChild parentStem stem nav ++ [(stem, (some parentStem, []))])) := by
  have hkeys1 : navKeys (appendChild parentStem stem nav) = navKeys nav :=
    appendChild_keys parentStem stem nav
  constructor
  · intro hmem
    rw [navAdd, if_pos hp, if_pos (by rw [containsA_iff_mem]; rw [show (appendChild parentStem stem nav).map (fun p => p.1) = navKeys nav from hkeys1]; exact hmem)]
  · intro hmem
    have hnc : containsA stem (appendChild parentStem stem nav) = false := by
      rw [← Bool.not_eq_true, containsA_iff_mem]
      rw [show (appendChild parentStem stem nav).map (fun p => p.1) = navKeys nav from hkeys1]
      exact hmem
    refine ⟨?_, ?_, ?_, ?_⟩
    · rw [navAdd, if_pos hp, if_neg (by rw [hnc]; exact Bool.false_ne_true)]
    · rw [navKeys, List.map_append, ← navKeys, hkeys1]
      rfl
    · rw [List.nodup_append]
      refine ⟨hnd, List.nodup_singleton stem, ?_⟩
      intro x hx hx2
      rw [List.mem_singleton] at hx2
      subst hx2
      exact hmem hx
    · refine parentsGood_append_new stem parentStem [] _ []
        (appendChild_parentsGood parentStem stem nav [] hpg) ?_
      rw [List.nil_append, hkeys1]
      exact (containsA_iff_mem parentStem nav).mp hp

theorem insertA_fresh {β : Type} (k : String) (v : β) (l : List (String × β))
    (h : containsA k l = false) : insertA k v l = l ++ [(k, v)] := by
  rw [insertA, if_neg (by rw [h]; exact Bool.false_ne_true)]

theorem firstViolation_append (xs : List String) :
    ∀ (seen ys : List String),
    firstViolation seen (xs ++ ys) =
      match firstViolation seen xs with
      | some s => some s
      | none => firstViolation (seen ++ xs) ys := by
  induction xs with
  | nil =>
    intro seen ys
    simp [firstViolation]
  | cons x xs ih =>
    intro seen ys
    rw [List.cons_append, firstViolation, firstViolation]
    by_cases hx : x ∈ seen
    · have hxb : seen.contains x = true := by simp [hx]
      rw [if_pos hxb, if_pos hxb]
    · have hxb : ¬ seen.contains x = true := by simp [hx]
      rw [if_neg hxb, if_neg hxb]
      rw [ih (seen ++ [x]) ys]
      rw [show seen ++ x :: xs = (seen ++ [x]) ++ xs by simp]

theorem firstViolation_none_nodup (xs : List String) :
    ∀ (seen : List String), seen.Nodup →
    (firstViolation seen xs = none ↔ (seen ++ xs).Nodup) := by
  induction xs with
  | nil =>
    intro seen hs
    simp [firstViolation, hs]
  | cons x xs ih =>
    intro seen hs
    rw [firstViolation]
    by_cases hx : x ∈ seen
    · have hxb : seen.contains x = true := by simp [hx]
      rw [if_pos hxb]
      constructor
      · intro hc
        exact absurd hc (by simp)
      · intro hnd
        exfalso
        rw [List.nodup_append] at hnd
        exact hnd.2.2 hx (List.mem_cons_self x xs)
    · have hxb : ¬ seen.contains x = true := by simp [hx]
      rw [if_neg hxb]
      have hs1 : (seen ++ [x]).Nodup := by
        rw [List.nodup_append]
        exact ⟨hs, List.nodup_singleton x, by
          intro a ha ha2
          rw [List.mem_singleton] at ha2
          subst ha2
          exact hx ha⟩
      rw [ih (seen ++ [x]) hs1]
      rw [show seen ++ x :: xs = (seen ++ [x]) ++ xs by simp]

mutual
theorem qualStems_length (e : Entry) (p : String) :
    (qualStems p e).length = countDirs e + countMdPages p e := by
  match e with
  | .file stem sfx =>
    rw [qualStems, countDirs, countMdPages]
    by_cases hh : startsWithDot (stem ++ sfx) = true
    · simp [hh]
    · by_cases hm : sfx = ".md"
      · subst hm
        by_cases hd : stem = p <;> simp [hh, hd]
      · simp [hh, hm]
  | .dir stem sfx entries =>
    rw [qualStems, countDirs, countMdPages]
    by_cases hh : startsWithDot (stem ++ sfx) = true
    · simp [hh]
    · simp only [hh, Bool.false_eq_true, if_false, List.length_cons]
      rw [qualStemsList_length entries stem]
      omega

theorem qualStemsList_length (es : List Entry) (p : String) :
    (qualStemsList p es).length = countDirsList es + countMdPagesList p es := by
  match es with
  | [] => rfl
  | e :: rest =>
    rw [qualStemsList, countDirsList, countMdPagesList, List.length_append,
      qualStems_length e p, qualStemsList_length rest p]
    omega
end

theorem lookupA_get_nodup {β : Type} :
    ∀ (l : List (String × β)), (l.map (fun p => p.1)).Nodup →
    ∀ (i : Nat) (hi : i < l.length),
      lookupA ((l.get ⟨i, hi⟩).1) l = some ((l.get ⟨i, hi⟩).2) := by
  intro l
  induction l with
  | nil => intro _ i hi; exact absurd hi (by simp)
  | cons hd rest ih =>
    obtain ⟨k1, v1⟩ := hd
    intro hnd i hi
    match i with
    | 0 => simp [lookupA]
    | j + 1 =>
      have hj : j < rest.length := by
        simp at hi
        omega
      have hkne : k1 ≠ (rest.get ⟨j, hj⟩).1 := by
        intro he
        simp only [List.map_cons, List.nodup_cons] at hnd
        apply hnd.1
        rw [he]
        exact List.mem_map_of_mem (fun p => p.1) (rest.get_mem j hj)
      show lookupA ((rest.get ⟨j, hj⟩).1) ((k1, v1) :: rest) = _
      rw [lookupA, if_neg hkne]
      exact ih (by simp only [List.map_cons, List.nodup_cons] at hnd; exact hnd.2) j hj

theorem parentsGood_get :
    ∀ (nav : NavTable) (earlier : List String), parentsGood earlier nav →
    ∀ (i : Nat) (hi : i < nav.length),
      (((nav.get ⟨i, hi⟩).2.1 = none ∧ (nav.get ⟨i, hi⟩).1 = "") ∨
       ∃ p, (nav.get ⟨i, hi⟩).2.1 = some p ∧
         (p ∈ earlier ∨ p ∈ (navKeys nav).take i)) := by
  intro nav
  induction nav with
  | nil => intro _ _ i hi; exact absurd hi (by simp)
  | cons hd rest ih =>
    obtain ⟨k1, po1, cs1⟩ := hd
    intro earlier hpg i hi
    obtain ⟨hhd, htl⟩ := hpg
    match i with
    | 0 =>
      rcases hhd with ⟨h1, h2⟩ | ⟨p, h1, h2⟩
      · exact Or.inl ⟨h1, h2⟩
      · exact Or.inr ⟨p, h1, Or.inl h2⟩
    | j + 1 =>
      have hj : j < rest.length := by
        simp at hi
        omega
      have := ih (earlier ++ [k1]) htl j hj
      rcases this with h | ⟨p, h1, h2⟩
      · exact Or.inl h
      · refine Or.inr ⟨p, h1, ?_⟩
        rcases h2 with h2 | h2
        · rw [List.mem_append] at h2
          rcases h2 with h2 | h2
          · exact Or.inl h2
          · refine Or.inr ?_
            rw [List.mem_singleton] at h2
            subst h2
            simp [navKeys]
        · refine Or.inr ?_
          show p ∈ (navKeys ((k1, (po1, cs1)) :: rest)).take (j + 1)
          rw [show navKeys ((k1, (po1, cs1)) :: rest) = k1 :: navKeys rest from rfl]
          rw [List.take_succ_cons]
          exact List.mem_cons_of_mem _ h2

theorem chainToRoot_of_pos (nav : NavTable) (hnd : (navKeys nav).Nodup)
    (hpg : parentsGood [] nav) :
    ∀ (fuel i : Nat) (hi : i < nav.length), i < fuel →
      chainToRoot nav fuel ((nav.get ⟨i, hi⟩).1) = true := by
  intro fuel
  induction fuel with
  | zero => intro i hi hif; omega
  | succ f ihf =>
    intro i hi hif
    rw [chainToRoot]
    by_cases hk : (nav.get ⟨i, hi⟩).1 = ""
    · simp only [List.get_eq_getElem] at hk
      simp [hk]
    · have hval : lookupA ((nav.get ⟨i, hi⟩).1) nav = some ((nav.get ⟨i, hi⟩).2) :=
        lookupA_get_nodup nav hnd i hi
      rcases parentsGood_get nav [] hpg i hi with ⟨_, hke⟩ | ⟨p, hpo, hmem⟩
      · exact absurd hke hk
      · rcases hmem with hmem | hmem
        · simp at hmem
        · obtain ⟨j, hjlt, hjp⟩ := List.mem_iff_getElem.mp hmem
          have hjlen : j < (navKeys nav).length := by
            rw [List.length_take] at hjlt
            omega
          have hjlt2 : j < i := by
            rw [List.length_take] at hjlt
            rcases Nat.lt_min.mp hjlt with ⟨h1, _⟩
            exact h1
          have hjnav : j < nav.length := by
            rw [navKeys, List.length_map] at hjlen
            exact hjlen
          have hp2 : (nav.get ⟨j, hjnav⟩).1 = p := by
            rw [List.getElem_take] at hjp
            rw [← hjp]
            simp [navKeys]
          have hrec := ihf j hjnav (by omega)
          rw [hp2] at hrec
          have hpair : (nav.get ⟨i, hi⟩).2 = (some p, ((nav.get ⟨i, hi⟩).2).2) := by
            rw [← hpo]
          rw [hpair] at hval
          rw [hval]
          simp [hrec]

theorem chainToRoot_all (nav : NavTable) (hnd : (navKeys nav).Nodup)
    (hpg : parentsGood [] nav) :
    ∀ k ∈ navKeys nav, chainToRoot nav nav.length k = true := by
  intro k hk
  obtain ⟨i, hilt, hik⟩ := List.mem_iff_getElem.mp hk
  have hinav : i < nav.length := by
    rw [navKeys, List.length_map] at hilt
    exact hilt
  have : (nav.get ⟨i, hinav⟩).1 = k := by
    rw [← hik]
    simp [navKeys]
  rw [← this]
  exact chainToRoot_of_pos nav hnd hpg nav.length i hinav hinav

mutual
theorem walkEntry_spec (e : Entry) : ∀ (parentStem : String) (st : WalkState),
    StInv st → containsA parentStem st.navigation = true →
    (match firstViolation (navKeys st.navigation) (qualStems parentStem e) with
     | some s => walkEntry parentStem st e = .error (.sameName s)
     | none => ∃ st', walkEntry parentStem st e = .ok st' ∧
         navKeys st'.navigation = navKeys st.navigation ++ qualStems parentStem e ∧
         pageKeys st'.pages = pageKeys st.pages ++ qualStems parentStem e ∧
         st'.media = st.media ++ mediaOfEntry e ∧
         StInv st') := by
  match e with
  | .file stem sfx =>
    intro parentStem st hInv hpar
    by_cases hh : startsWithDot (stem ++ sfx) = true
    · have hq : qualStems parentStem (Entry.file stem sfx) = [] := by
        simp [qualStems, hh]
      have hmd : mediaOfEntry (Entry.file stem sfx) = [] := by
        simp [mediaOfEntry, hh]
      rw [hq, hmd]
      exact ⟨st, by rw [walkEntry]; simp [hh], by simp, by simp, by simp, hInv⟩
    · by_cases hm : sfx = ".md"
      · subst hm
        by_cases hdsc : stem = parentStem
        · have hq : qualStems parentStem (Entry.file stem ".md") = [] := by
            simp [qualStems, hh, hdsc]
          have hmd : mediaOfEntry (Entry.file stem ".md") = [] := by
            simp [mediaOfEntry, hh]
          rw [hq, hmd]
          exact ⟨st, by rw [walkEntry]; simp [hh, hdsc], by simp, by simp, by simp, hInv⟩
        · have hq : qualStems parentStem (Entry.file stem ".md") = [stem] := by
            simp [qualStems, hh, hdsc]
          rw [hq, firstViolation]
          obtain ⟨hI1, hI2, hI3⟩ := hInv
          by_cases hmem : stem ∈ navKeys st.navigation
          · have hcont : (navKeys st.navigation).contains stem = true := by
              simp [hmem]
            rw [if_pos hcont]
            rw [walkEntry]
            simp only [hh, Bool.false_eq_true, if_false, if_pos rfl, if_neg hdsc]
            rw [(navAdd_spec parentStem stem st.navigation hI2 hI3 hpar).1 hmem]
            simp
          · have hcont : ¬ (navKeys st.navigation).contains stem = true := by
              simp [hmem]
            rw [if_neg hcont, firstViolation]
            obtain ⟨hadd, hkeys, hnd', hpg'⟩ :=
              (navAdd_spec parentStem stem st.navigation hI2 hI3 hpar).2 hmem
            have hpfresh : containsA stem st.pages = false := by
              rw [← Bool.not_eq_true, containsA_iff_mem]
              intro hmp
              apply hmem
              rw [hI1]
              exact List.mem_cons_of_mem _ hmp
            refine ⟨{ pages := insertA stem (some (stem ++ ".md"), urlize stem ++ ".html") st.pages,
                      navigation := appendChild parentStem stem st.navigation ++
                        [(stem, (some parentStem, []))],
                      media := st.media }, ?_, ?_, ?_, ?_, ?_⟩
            · rw [walkEntry]
              simp only [hh, Bool.false_eq_true, if_false, if_pos rfl, if_neg hdsc]
              rw [hadd]
              simp
            · exact hkeys
            · show pageKeys (insertA stem _ st.pages) = _
              rw [insertA_fresh stem _ st.pages hpfresh, pageKeys, List.map_append]
              rfl
            · simp [mediaOfEntry, hh]
            · refine ⟨?_, hkeys ▸ hnd', hpg'⟩
              show navKeys (appendChild parentStem stem st.navigation ++
                [(stem, (some parentStem, []))]) = _
              rw [hkeys, hI1]
              rw [insertA_fresh stem _ st.pages hpfresh]
              simp [pageKeys]
      · have hq : qualStems parentStem (Entry.file stem sfx) = [] := by
          simp [qualStems, hh, hm]
        have hmd : mediaOfEntry (Entry.file stem sfx) =
            [(stem ++ sfx, MEDIA_DIRECTORY ++ "/" ++ urlize stem ++ sfx)] := by
          simp [mediaOfEntry, hh, hm]
        rw [hq, hmd]
        refine ⟨{ st with media := st.media ++
            [(stem ++ sfx, MEDIA_DIRECTORY ++ "/" ++ urlize stem ++ sfx)] },
          ?_, by simp, by simp, rfl, ?_⟩
        · rw [walkEntry]
          simp [hh, hm]
        · exact hInv
  | .dir stem sfx entries =>
    intro parentStem st hInv hpar
    by_cases hh : startsWithDot (stem ++ sfx) = true
    · have hq : qualStems parentStem (Entry.dir stem sfx entries) = [] := by
        simp [qualStems, hh]
      have hmd : mediaOfEntry (Entry.dir stem sfx entries) = [] := by
        simp [mediaOfEntry, hh]
      rw [hq, hmd]
      exact ⟨st, by rw [walkEntry]; simp [hh], by simp, by simp, by simp, hInv⟩
    · have hq : qualStems parentStem (Entry.dir stem sfx entries) =
          stem :: qualStemsList stem entries := by
        simp [qualStems, hh]
      have hmd : mediaOfEntry (Entry.dir stem sfx entries) = mediaOfList entries := by
        simp [mediaOfEntry, hh]
      rw [hq, hmd, firstViolation]
      obtain ⟨hI1, hI2, hI3⟩ := hInv
      by_cases hmem : stem ∈ navKeys st.navigation
      · have hcont : (navKeys st.navigation).contains stem = true := by
          simp [hmem]
        rw [if_pos hcont]
        rw [walkEntry]
        simp only [hh, Bool.false_eq_true, if_false]
        rw [(navAdd_spec parentStem stem st.navigation hI2 hI3 hpar).1 hmem]
      · have hcont : ¬ (navKeys st.navigation).contains stem = true := by
          simp [hmem]
        rw [if_neg hcont]
        obtain ⟨hadd, hkeys, hnd', hpg'⟩ :=
          (navAdd_spec parentStem stem st.navigation hI2 hI3 hpar).2 hmem
        have hpfresh : containsA stem st.pages = false := by
          rw [← Bool.not_eq_true, containsA_iff_mem]
          intro hmp
          apply hmem
          rw [hI1]
          exact List.mem_cons_of_mem _ hmp
        set st1 : WalkState :=
          { pages := insertA stem
              ((if hasDescFile stem entries then some (stem ++ "/" ++ stem ++ ".md") else none),
                urlize stem ++ ".html") st.pages,
            navigation := appendChild parentStem stem st.navigation ++
              [(stem, (some parentStem, []))],
            media := st.media } with hst1
    -- the walk of the directory itself succeeds and recurses into `entries`
        have hw1 : walkEntry parentStem st (Entry.dir stem sfx entries) =
            walkList stem st1 entries := by
          rw [walkEntry]
          simp only [hh, Bool.false_eq_true, if_false]
          rw [hadd]
        have hkeys1 : navKeys st1.navigation = navKeys st.navigation ++ [stem] := hkeys
        have hpages1 : pageKeys st1.pages = pageKeys st.pages ++ [stem] := by
          rw [hst1]
          show pageKeys (insertA stem _ st.pages) = _
          rw [insertA_fresh stem _ st.pages hpfresh, pageKeys, List.map_append]
          rfl
        have hInv1 : StInv st1 := by
          refine ⟨?_, hkeys1 ▸ hnd', hpg'⟩
          rw [hkeys1, hpages1, hI1]
          rfl
        have hpar1 : containsA stem st1.navigation = true := by
          rw [containsA_iff_mem]
          show stem ∈ navKeys st1.navigation
          rw [hkeys1]
          exact List.mem_append_right _ (List.mem_singleton.mpr rfl)
        have hrec := walkList_spec entries stem st1 hInv1 hpar1
        rw [hkeys1] at hrec
        cases hfv : firstViolation (navKeys st.navigation ++ [stem])
            (qualStemsList stem entries) with
        | some s =>
          rw [hfv] at hrec
          have hrec2 : walkList stem st1 entries = .error (.sameName s) := hrec
          rw [hw1, hrec2]
        | none =>
          rw [hfv] at hrec
          obtain ⟨st', hok, hk', hp', hm', hInv'⟩ :=
            (hrec : ∃ st', walkList stem st1 entries = .ok st' ∧ _)
          refine ⟨st', by rw [hw1]; exact hok, ?_, ?_, ?_, hInv'⟩
          · rw [hk']
            simp
          · rw [hp', hpages1]
            simp
          · rw [hm', hst1]

theorem walkList_spec (es : List Entry) : ∀ (parentStem : String) (st : WalkState),
    StInv st → containsA parentStem st.navigation = true →
    (match firstViolation (navKeys st.navigation) (qualStemsList parentStem es) with
     | some s => walkList parentStem st es = .error (.sameName s)
     | none => ∃ st', walkList parentStem st es = .ok st' ∧
         navKeys st'.navigation = navKeys st.navigation ++ qualStemsList parentStem es ∧
         pageKeys st'.pages = pageKeys st.pages ++ qualStemsList parentStem es ∧
         st'.media = st.media ++ mediaOfList es ∧
         StInv st') := by
  match es with
  | [] =>
    intro parentStem st hInv _
    rw [qualStemsList, firstViolation]
    exact ⟨st, by rw [walkList], by simp, by simp, by simp [mediaOfList], hInv⟩
  | e :: rest =>
    intro parentStem st hInv hpar
    rw [qualStemsList, firstViolation_append]
    have hent := walkEntry_spec e parentStem st hInv hpar
    cases hfe : firstViolation (navKeys st.navigation) (qualStems parentStem e) with
    | some s =>
      rw [hfe] at hent
      have hent2 : walkEntry parentStem st e = .error (.sameName s) := hent
      show walkList parentStem st (e :: rest) = .error (.sameName s)
      rw [walkList, hent2]
    | none =>
      rw [hfe] at hent
      obtain ⟨st', hok, hk', hp', hm', hInv'⟩ :=
        (hent : ∃ st', walkEntry parentStem st e = .ok st' ∧ _)
      have hpar' : containsA parentStem st'.navigation = true := by
        rw [containsA_iff_mem]
        show parentStem ∈ navKeys st'.navigation
        rw [hk']
        exact List.mem_append_left _ ((containsA_iff_mem parentStem st.navigation).mp hpar)
      have hrec := walkList_spec rest parentStem st' hInv' hpar'
      rw [hk'] at hrec
      cases hfv : firstViolation (navKeys st.navigation ++ qualStems parentStem e)
          (qualStemsList parentStem rest) with
      | some s =>
        rw [hfv] at hrec
        have hrec2 : walkList parentStem st' rest = .error (.sameName s) := hrec
        show walkList parentStem st (e :: rest) = .error (.sameName s)
        rw [walkList, hok]
        exact hrec2
      | none =>
        rw [hfv] at hrec
        obtain ⟨st'', hok2, hk2, hp2, hm2, hInv2⟩ :=
          (hrec : ∃ st'', walkList parentStem st' rest = .ok st'' ∧ _)
        show ∃ st'', walkList parentStem st (e :: rest) = .ok st'' ∧
          navKeys st''.navigation =
            navKeys st.navigation ++ (qualStems parentStem e ++ qualStemsList parentStem rest) ∧
          pageKeys st''.pages =
            pageKeys st.pages ++ (qualStems parentStem e ++ qualStemsList parentStem rest) ∧
          st''.media = st.media ++ mediaOfList (e :: rest) ∧ StInv st''
        refine ⟨st'', ?_, ?_, ?_, ?_, hInv2⟩
        · rw [walkList, hok]
          exact hok2
        · rw [hk2]
          simp
        · rw [hp2, hp']
          simp
        · rw [hm2, hm', mediaOfList]
          simp
end

theorem initState_inv : StInv initState :=
  ⟨rfl, by simp [initState, navKeys], ⟨Or.inl ⟨rfl, rfl⟩, trivial⟩⟩

theorem parse_spec (rootStem rootSfx : String) (entries : List Entry) :
    (match firstViolation [""] (allQualStems rootStem rootSfx entries) with
     | some s => parse_input_directory rootStem rootSfx entries = .error (.sameName s)
     | none => ∃ st, parse_input_directory rootStem rootSfx entries = .ok st ∧
         navKeys st.navigation = "" :: allQualStems rootStem rootSfx entries ∧
         pageKeys st.pages = allQualStems rootStem rootSfx entries ∧
         st.media = allMedia rootStem rootSfx entries ∧
         StInv st) := by
  by_cases hh : startsWithDot (rootStem ++ rootSfx) = true
  · have hq : allQualStems rootStem rootSfx entries = [] := by
      simp [allQualStems, hh]
    rw [hq, firstViolation]
    refine ⟨initState, ?_, by simp [initState, navKeys, pageKeys], rfl,
      by simp [initState, allMedia, hh], initState_inv⟩
    rw [parse_input_directory, if_pos hh]
  · have hq : allQualStems rootStem rootSfx entries =
        rootStem :: qualStemsList rootStem entries := by
      simp [allQualStems, hh]
    rw [hq, firstViolation]
    have hpar0 : containsA "" initState.navigation = true := rfl
    have hI2 : (navKeys initState.navigation).Nodup := initState_inv.2.1
    have hI3 : parentsGood [] initState.navigation := initState_inv.2.2
    have hseen : navKeys initState.navigation = [""] := rfl
    by_cases hmem : rootStem ∈ navKeys initState.navigation
    · have hcont : ([""] : List String).contains rootStem = true := by
        rw [← hseen]
        simp [hmem]
      rw [if_pos hcont]
      rw [parse_input_directory, if_neg hh]
      rw [(navAdd_spec "" rootStem initState.navigation hI2 hI3 hpar0).1 hmem]
    · have hcont : ¬ ([""] : List String).contains rootStem = true := by
        rw [← hseen]
        simp [hmem]
      rw [if_neg hcont]
      obtain ⟨hadd, hkeys, hnd', hpg'⟩ :=
        (navAdd_spec "" rootStem initState.navigation hI2 hI3 hpar0).2 hmem
      set st1 : WalkState :=
        { pages := insertA rootStem
            ((if hasDescFile rootStem entries then
                some (rootStem ++ "/" ++ rootStem ++ ".md") else none), "index.html")
            initState.pages,
          navigation := appendChild "" rootStem initState.navigation ++
            [(rootStem, (some "", []))],
          media := [] } with hst1
      have hw1 : parse_input_directory rootStem rootSfx entries =
          walkList rootStem st1 entries := by
        rw [parse_input_directory, if_neg hh]
        rw [hadd]
      have hkeys1 : navKeys st1.navigation = [""] ++ [rootStem] := hkeys
      have hpages1 : pageKeys st1.pages = [rootStem] := by
        rw [hst1]
        rfl
      have hInv1 : StInv st1 := by
        refine ⟨?_, hkeys1 ▸ hnd', hpg'⟩
        rw [hkeys1, hpages1]
        rfl
      have hpar1 : containsA rootStem st1.navigation = true := by
        rw [containsA_iff_mem]
        show rootStem ∈ navKeys st1.navigation
        rw [hkeys1]
        exact List.mem_append_right _ (List.mem_singleton.mpr rfl)
      have hrec := walkList_spec entries rootStem st1 hInv1 hpar1
      rw [hkeys1] at hrec
      cases hfv : firstViolation ([""] ++ [rootStem]) (qualStemsList rootStem entries) with
      | some s =>
        rw [hfv] at hrec
        have hrec2 : walkList rootStem st1 entries = .error (.sameName s) := hrec
        rw [hw1, hrec2]
      | none =>
        rw [hfv] at hrec
        obtain ⟨st', hok, hk', hp', hm', hInv'⟩ :=
          (hrec : ∃ st', walkList rootStem st1 entries = .ok st' ∧ _)
        refine ⟨st', by rw [hw1]; exact hok, ?_, ?_, ?_, hInv'⟩
        · rw [hk']
          simp
        · rw [hp', hpages1]
          simp
        · rw [hm', hst1]
          simp [allMedia, hh]

theorem allQualStems_length (rootStem rootSfx : String) (entries : List Entry) :
    (allQualStems rootStem rootSfx entries).length =
      countDirsRoot rootStem rootSfx entries + countMdPagesRoot rootStem rootSfx entries := by
  by_cases hh : startsWithDot (rootStem ++ rootSfx) = true
  · simp [allQualStems, countDirsRoot, countMdPagesRoot, hh]
  · simp only [allQualStems, countDirsRoot, countMdPagesRoot, hh, Bool.false_eq_true,
      if_false, List.length_cons]
    rw [qualStemsList_length entries rootStem]
    omega

/-- C2: the walker raises `SameNameError` exactly when two qualifying
entries (directories or non-description markdown pages, anywhere in the
tree, at any depths) share a stem — equivalently, when the walk-ordered
stem list extended with the pre-seeded root key `""` has a repeat — and the
error it raises names the first stem that repeats an already-seen name, so
the walk stops at the moment the second occurrence is reached. -/
theorem walker_duplicate_spec (rootStem rootSfx : String) (entries : List Entry) :
    ((∃ s, parse_input_directory rootStem rootSfx entries = .error (.sameName s)) ↔
      ¬ ("" :: allQualStems rootStem rootSfx entries).Nodup) ∧
    (∀ s, parse_input_directory rootStem rootSfx entries = .error (.sameName s) →
      firstViolation [""] (allQualStems rootStem rootSfx entries) = some s) := by
  have hps := parse_spec rootStem rootSfx entries
  have hnn := firstViolation_none_nodup (allQualStems rootStem rootSfx entries) [""]
    (by simp)
  constructor
  · constructor
    · rintro ⟨s, hs⟩ hnd
      have hfn : firstViolation [""] (allQualStems rootStem rootSfx entries) = none :=
        hnn.mpr (by simpa using hnd)
      rw [hfn] at hps
      obtain ⟨st, hok, _⟩ :=
        (hps : ∃ st, parse_input_directory rootStem rootSfx entries = .ok st ∧ _)
      rw [hok] at hs
      simp at hs
    · intro hnnod
      cases hfv : firstViolation [""] (allQualStems rootStem rootSfx entries) with
      | none => exact absurd (by simpa using hnn.mp hfv) hnnod
      | some t =>
        rw [hfv] at hps
        exact ⟨t, hps⟩
  · intro s hs
    cases hfv : firstViolation [""] (allQualStems rootStem rootSfx entries) with
    | none =>
      rw [hfv] at hps
      obtain ⟨st, hok, _⟩ :=
        (hps : ∃ st, parse_input_directory rootStem rootSfx entries = .ok st ∧ _)
      rw [hok] at hs
      simp at hs
    | some t =>
      rw [hfv] at hps
      have hps2 : parse_input_directory rootStem rootSfx entries = .error (.sameName t) := hps
      rw [hps2] at hs
      injection hs with he
      injection he with he2
      rw [he2]

/-- C2 witness: two directories both named `notes` at different depths make
the walker raise `SameNameError notes`, the first repeated name. -/
theorem walker_duplicate_spec_witness :
    parse_input_directory "input" "" dupEntries = .error (.sameName "notes") ∧
    firstViolation [""] (allQualStems "input" "" dupEntries) = some "notes" :=
  ⟨rfl, (walker_duplicate_spec "input" "" dupEntries).2 "notes" rfl⟩

/-- C7: a successful walk yields a pages table with exactly one entry per
non-hidden directory and per non-hidden non-description markdown file, and
a navigation table forming a connected tree rooted at the empty-string key:
duplicate-free keys, the root key present with parent `None`, every
non-root key's parent a key of the table, and every key reaching the root
by iterating parents (hence no cycles). -/
theorem walker_invariants_spec (rootStem rootSfx : String) (entries : List Entry)
    (st : WalkState)
    (hok : parse_input_directory rootStem rootSfx entries = .ok st) :
    st.pages.length = countDirsRoot rootStem rootSfx entries +
      countMdPagesRoot rootStem rootSfx entries ∧
    (navKeys st.navigation).Nodup ∧
    containsA "" st.navigation = true ∧
    navParent st.navigation "" = none ∧
    (∀ k ∈ navKeys st.navigation, k ≠ "" →
      (navParent st.navigation k).isSome = true ∧
      (navParent st.navigation k).getD "" ∈ navKeys st.navigation) ∧
    (∀ k ∈ navKeys st.navigation, chainToRoot st.navigation st.navigation.length k = true) := by
  have hps := parse_spec rootStem rootSfx entries
  cases hfv : firstViolation [""] (allQualStems rootStem rootSfx entries) with
  | some s =>
    rw [hfv] at hps
    have hps2 : parse_input_directory rootStem rootSfx entries = .error (.sameName s) := hps
    rw [hps2] at hok
    simp at hok
  | none =>
    rw [hfv] at hps
    obtain ⟨st0, hok0, hkeys, hpages, hmedia, hInv⟩ :=
      (hps : ∃ st0, parse_input_directory rootStem rootSfx entries = .ok st0 ∧ _)
    have hsame : st0 = st := by
      have := hok0.symm.trans hok
      injection this
    subst hsame
    obtain ⟨hI1, hI2, hI3⟩ := hInv
    refine ⟨?_, hI2, ?_, ?_, ?_, chainToRoot_all st0.navigation hI2 hI3⟩
    · have hl : (pageKeys st0.pages).length = st0.pages.length := by
        simp [pageKeys]
      rw [← hl, hpages, allQualStems_length]
    · rw [containsA_iff_mem]
      show "" ∈ navKeys st0.navigation
      rw [hkeys]
      exact List.mem_cons_self _ _
    · match hnav : st0.navigation with
      | [] =>
        rw [hnav] at hkeys
        simp [navKeys] at hkeys
      | (k0, (po0, cs0)) :: navrest =>
        have hk0 : k0 = "" := by
          rw [hnav] at hkeys
          simp only [navKeys, List.map_cons] at hkeys
          injection hkeys
        have hpo0 : po0 = none := by
          rw [hnav] at hI3
          obtain ⟨hhd, _⟩ := hI3
          rcases hhd with ⟨h1, _⟩ | ⟨p, _, hp⟩
          · exact h1
          · simp at hp
        rw [navParent, lookupA, if_pos hk0, hpo0]
        rfl
    · intro k hk hkne
      obtain ⟨i, hilt, hik⟩ := List.mem_iff_getElem.mp hk
      have hinav : i < st0.navigation.length := by
        rw [navKeys, List.length_map] at hilt
        exact hilt
      have hgetk : (st0.navigation.get ⟨i, hinav⟩).1 = k := by
        rw [← hik]
        simp [navKeys]
      have hval : lookupA k st0.navigation = some ((st0.navigation.get ⟨i, hinav⟩).2) := by
        rw [← hgetk]
        exact lookupA_get_nodup st0.navigation hI2 i hinav
      have hnp : navParent st0.navigation k = (st0.navigation.get ⟨i, hinav⟩).2.1 := by
        rw [navParent, hval]
        rfl
      rcases parentsGood_get st0.navigation [] hI3 i hinav with ⟨_, hke⟩ | ⟨p, hpo, hmem⟩
      · rw [hgetk] at hke
        exact absurd hke hkne
      · rcases hmem with hmem | hmem
        · simp at hmem
        · constructor
          · rw [hnp, hpo]
            rfl
          · rw [hnp, hpo]
            exact List.take_subset i (navKeys st0.navigation) hmem

/-- C7 witness: on the concrete tree the walk succeeds, the pages count is
the directory count plus the markdown-page count, the keys are unique, and
a deep page reaches the root through the parent chain. -/
theorem walker_invariants_spec_witness :
    parse_input_directory "input" "" exEntries = .ok exState ∧
    exState.pages.length = countDirsRoot "input" "" exEntries +
      countMdPagesRoot "input" "" exEntries ∧
    (navKeys exState.navigation).Nodup ∧
    chainToRoot exState.navigation exState.navigation.length "note" = true :=
  ⟨rfl, (walker_invariants_spec "input" "" exEntries exState rfl).1,
    (walker_invariants_spec "input" "" exEntries exState rfl).2.1,
    (walker_invariants_spec "input" "" exEntries exState rfl).2.2.2.2.2 "note" (by decide)⟩

theorem lookupA_updateA_self {β : Type} (k : String) (v : β) :
    ∀ (l : List (String × β)), containsA k l = true →
    lookupA k (updateA k v l) = some v := by
  intro l
  induction l with
  | nil => intro h; simp [containsA, lookupA] at h
  | cons hd rest ih =>
    obtain ⟨k1, v1⟩ := hd
    intro h
    by_cases hk : k1 = k
    · rw [updateA, if_pos hk, lookupA, if_pos hk]
    · rw [updateA, if_neg hk, lookupA, if_neg hk]
      apply ih
      rw [containsA, lookupA, if_neg hk] at h
      exact h

theorem lookupA_updateA_ne {β : Type} (k k' : String) (v : β) (h : k ≠ k') :
    ∀ (l : List (String × β)), lookupA k' (updateA k v l) = lookupA k' l := by
  intro l
  induction l with
  | nil => rfl
  | cons hd rest ih =>
    obtain ⟨k1, v1⟩ := hd
    by_cases hk : k1 = k
    · subst hk
      rw [updateA, if_pos rfl, lookupA, lookupA, if_neg h, if_neg h]
    · rw [updateA, if_neg hk, lookupA, lookupA]
      by_cases hk' : k1 = k'
      · rw [if_pos hk', if_pos hk']
      · rw [if_neg hk', if_neg hk']
        exact ih

theorem lookupA_append {β : Type} (k : String) :
    ∀ (l1 l2 : List (String × β)),
    lookupA k (l1 ++ l2) =
      match lookupA k l1 with
      | some v => some v
      | none => lookupA k l2 := by
  intro l1 l2
  induction l1 with
  | nil => simp [lookupA]
  | cons hd rest ih =>
    obtain ⟨k1, v1⟩ := hd
    by_cases hk : k1 = k
    · rw [List.cons_append, lookupA, if_pos hk, lookupA, if_pos hk]
    · rw [List.cons_append, lookupA, if_neg hk, lookupA, if_neg hk]
      exact ih

theorem lookupA_insertA_self {β : Type} (k : String) (v : β) (l : List (String × β)) :
    lookupA k (insertA k v l) = some v := by
  rw [insertA]
  by_cases hc : containsA k l = true
  · rw [if_pos hc]
    exact lookupA_updateA_self k v l hc
  · rw [if_neg hc, lookupA_append]
    have hnone : lookupA k l = none := by
      rw [containsA] at hc
      cases hv : lookupA k l with
      | none => rfl
      | some v0 => rw [hv] at hc; simp at hc
    rw [hnone]
    simp [lookupA]

theorem lookupA_insertA_ne {β : Type} (k k' : String) (v : β) (l : List (String × β))
    (h : k ≠ k') : lookupA k' (insertA k v l) = lookupA k' l := by
  rw [insertA]
  by_cases hc : containsA k l = true
  · rw [if_pos hc]
    exact lookupA_updateA_ne k k' v h l
  · rw [if_neg hc, lookupA_append]
    cases hv : lookupA k' l with
    | none =>
      show lookupA k' [(k, v)] = none
      rw [lookupA, if_neg h]
      rfl
    | some v0 => rfl

theorem lookupA_make_links_media (n : String) :
    ∀ (media : MediaList) (base : List (String × String)),
    lookupA n (media.foldl (fun l m => insertA m.1 m.2 l) base) =
      match (media.filter (fun m => m.1 == n)).getLast? with
      | some m => some m.2
      | none => lookupA n base := by
  intro media
  induction media with
  | nil => intro base; simp
  | cons m ms ih =>
    intro base
    rw [List.foldl_cons, ih]
    by_cases hm : m.1 = n
    · rw [List.filter_cons, if_pos (by simp [hm])]
      cases hf : ms.filter (fun m => m.1 == n) with
      | nil =>
        show lookupA n (insertA m.1 m.2 base) = some m.2
        rw [← hm]
        exact lookupA_insertA_self m.1 m.2 base
      | cons x xs =>
        rw [List.getLast?_cons_cons]
        rfl
    · rw [List.filter_cons, if_neg (by simp [hm])]
      cases hf : (ms.filter (fun m => m.1 == n)).getLast? with
      | some m' => rfl
      | none =>
        exact lookupA_insertA_ne m.1 n m.2 base hm

/-- C10: when the qualifying (directory / markdown-page) stems are unique,
the walker succeeds no matter how many media files share a filename (the
duplicate-name check never looks at media files); the collected media list
is exactly the scan-ordered media of the tree, and `make_links` maps each
media filename to the destination of its last occurrence in scan order —
the dict assignment of a later file overwrites an earlier one, leaving the
earlier media file unreachable through the link table. -/
theorem media_shadowing_spec (rootStem rootSfx : String) (entries : List Entry)
    (hnodup : firstViolation [""] (allQualStems rootStem rootSfx entries) = none) :
    (∃ st, parse_input_directory rootStem rootSfx entries = .ok st) ∧
    (∀ st, parse_input_directory rootStem rootSfx entries = .ok st →
      st.media = allMedia rootStem rootSfx entries ∧
      ∀ n m, (st.media.filter (fun x => x.1 == n)).getLast? = some m →
        lookupA n (make_links st.pages st.media) = some m.2) := by
  have hps := parse_spec rootStem rootSfx entries
  rw [hnodup] at hps
  obtain ⟨st0, hok0, hkeys, hpages, hmedia, hInv⟩ :=
    (hps : ∃ st0, parse_input_directory rootStem rootSfx entries = .ok st0 ∧ _)
  constructor
  · exact ⟨st0, hok0⟩
  · intro st hok
    have hsame : st0 = st := by
      have := hok0.symm.trans hok
      injection this
    subst hsame
    refine ⟨hmedia, ?_⟩
    intro n m hlast
    rw [make_links, lookupA_make_links_media, hlast]

/-- C10 witness: with two media files sharing the name `photo.png` the walk
succeeds, and the link table maps the shared name to the destination of the
later one. -/
theorem media_shadowing_spec_witness :
    parse_input_directory "input" "" medEntries = .ok medState ∧
    medState.media = allMedia "input" "" medEntries ∧
    lookupA "photo.png" (make_links medState.pages medState.media) =
      some "media/photo.png" :=
  ⟨rfl,
    ((media_shadowing_spec "input" "" medEntries rfl).2 medState rfl).1,
    ((media_shadowing_spec "input" "" medEntries rfl).2 medState rfl).2 "photo.png"
      ("photo.png", "media/photo.png") rfl⟩
